import Mathlib

/-
Verification of the layout/pagination engine of MarkdownToPdf
(src/src-tauri/src/main.rs), as a shallow embedding in Lean.

Modelling conventions:
* Rust `f32` arithmetic is modelled by exact rational arithmetic on `ℚ`;
  floating-point literals such as `0.3527777778` become the exact rational
  with the same decimal expansion.
* Rust strings are modelled as `List Char`; `char::is_whitespace` is modelled
  by `Char.isWhitespace` (the ASCII fragment of Unicode whitespace).
* The printpdf drawing surface is external to the repository; a drawing call
  (`use_text`, `Image::add_to_layer`) is recorded as a `DrawOp` value carrying
  the page index, the absolute coordinates and (for text) the drawn string.
  Fonts and colours carry no claim and are omitted from the record.
* File-system access (image files) is external I/O; it is modelled by an
  explicit environment `Env` with an existence predicate and a decode result.
* The pulldown-cmark parser is external; its event stream is modelled by the
  `MdEvent` type covering exactly the constructors `render_markdown_content`
  matches on.
-/

/-- Constant `PAGE_WIDTH_MM` (main.rs:205). -/
def PAGE_WIDTH_MM : ℚ := 210

/-- Constant `PAGE_HEIGHT_MM` (main.rs:206). -/
def PAGE_HEIGHT_MM : ℚ := 297

/-- Constant `MARGIN_MM` (main.rs:207). -/
def MARGIN_MM : ℚ := 15

/-- Constant `MAX_IMAGE_HEIGHT_MM` (main.rs:208). -/
def MAX_IMAGE_HEIGHT_MM : ℚ := 120

/-- `Renderer::mm_to_pt` (main.rs:272-274): `mm / 0.3527777778`. -/
def mm_to_pt (mm : ℚ) : ℚ := mm / (3527777778 / 10000000000)

/-- `Renderer::pt_to_mm` (main.rs:276-278): `pt * 0.3527777778`. -/
def pt_to_mm (pt : ℚ) : ℚ := pt * (3527777778 / 10000000000)

/-- `Renderer::line_height_mm` (main.rs:280-282): `pt_to_mm(font_size * 1.25)`. -/
def line_height_mm (font_size : ℚ) : ℚ := pt_to_mm (font_size * (125 / 100))

/-- `Renderer::max_text_width_mm` (main.rs:284-286):
`PAGE_WIDTH_MM - 2.0 * MARGIN_MM - indent_mm`. -/
def max_text_width_mm (indent_mm : ℚ) : ℚ := PAGE_WIDTH_MM - 2 * MARGIN_MM - indent_mm

/-- Auxiliary right fold behind `str::split_whitespace` (used at main.rs:295):
splits a character list into words, recording an empty marker word at each
whitespace character; `splitWs` filters the markers out. -/
def wordsAux : List Char → List (List Char)
  | [] => []
  | c :: cs =>
    if c.isWhitespace then [] :: wordsAux cs
    else
      match wordsAux cs with
      | [] => [[c]]
      | w :: ws => (c :: w) :: ws

/-- Model of Rust `str::split_whitespace`: the whitespace-separated words of a
string, in order, with no empty words. -/
def splitWs (s : List Char) : List (List Char) := (wordsAux s).filter (fun w => w ≠ [])

/-- Model of Rust `str::trim_end` (used at main.rs:305,319). -/
def trimEnd (s : List Char) : List Char :=
  (s.reverse.dropWhile (fun c => c.isWhitespace)).reverse

/-- Model of Rust `str::trim_start`. -/
def trimStart (s : List Char) : List Char := s.dropWhile (fun c => c.isWhitespace)

/-- Model of Rust `str::trim` (used at main.rs:573,580,592). -/
def trim (s : List Char) : List Char := trimEnd (trimStart s)

/-- Join a list of strings with a single space between consecutive elements
(the way `wrap_text` assembles a line from words, main.rs:310-314). -/
def joinSp : List (List Char) → List Char
  | [] => []
  | [w] => w
  | w :: ws => w ++ ' ' :: joinSp ws

/-- Helper for `collapse`: remove one leading space. -/
def dropLeadSpace (l : List Char) : List Char :=
  match l with
  | [] => []
  | c :: r => if c = ' ' then r else c :: r

/-- Written from the words of claim C10 (refinement comparison): replace every
maximal run of whitespace characters by a single space. -/
def collapse : List Char → List Char
  | [] => []
  | c :: cs => if c.isWhitespace then ' ' :: dropLeadSpace (collapse cs) else c :: collapse cs

/-- One iteration of the word loop of `Renderer::wrap_text` (main.rs:295-316).
The accumulator is `(lines, current, current_width)`. -/
def wrapStep (avg_char_width_pt max_width_pt : ℚ)
    (acc : List (List Char) × List Char × ℚ) (word : List Char) :
    List (List Char) × List Char × ℚ :=
  let lines := acc.1
  let current := acc.2.1
  let current_width := acc.2.2
  let word_width := (word.length : ℚ) * avg_char_width_pt
  let space_width := avg_char_width_pt
  let next_width := if current = [] then word_width else current_width + space_width + word_width
  let p1 : List (List Char) × List Char × ℚ :=
    if next_width > max_width_pt ∧ current ≠ [] then (lines ++ [trimEnd current], [], 0)
    else (lines, current, current_width)
  let p2 : List Char × ℚ :=
    if p1.2.1 ≠ [] then (p1.2.1 ++ [' '], p1.2.2 + space_width) else (p1.2.1, p1.2.2)
  (p1.1, p2.1 ++ word, p2.2 + word_width)

/-- `Renderer::wrap_text` (main.rs:288-327): greedy word wrap with the
approximate width model `avg_char_width_pt = font_size * 0.52`. -/
def wrap_text (text : List Char) (font_size max_width_mm : ℚ) : List (List Char) :=
  let max_width_pt := mm_to_pt max_width_mm
  let avg_char_width_pt := font_size * (52 / 100)
  let fin := (splitWs text).foldl (wrapStep avg_char_width_pt max_width_pt) ([], [], 0)
  let lines := if fin.2.1 ≠ [] then fin.1 ++ [trimEnd fin.2.1] else fin.1
  if lines = [] then [[]] else lines

/-- Renderer state (main.rs:216-222): the vertical cursor and the number of
pages added with `add_page` (the document starts with one page; `pages` counts
the extra ones). Page/layer handles are identified with the page count. -/
structure RState where
  cursor_y : ℚ
  pages : ℕ
deriving DecidableEq

/-- Initial renderer state (main.rs:238-249): cursor at the top margin of the
first page. -/
def initState : RState := ⟨PAGE_HEIGHT_MM - MARGIN_MM, 0⟩

/-- `Renderer::add_page` (main.rs:257-264). -/
def add_page (s : RState) : RState := ⟨PAGE_HEIGHT_MM - MARGIN_MM, s.pages + 1⟩

/-- `Renderer::ensure_space` (main.rs:266-270). -/
def ensure_space (height_mm : ℚ) (s : RState) : RState :=
  if s.cursor_y - height_mm < MARGIN_MM then add_page s else s

/-- A recorded drawing-surface call: a `use_text` run or an image placement,
with the page it lands on and its absolute coordinates (main.rs:339,371,378,
408,476). -/
inductive DrawOp
  | text (page : ℕ) (x y : ℚ) (content : List Char)
  | image (page : ℕ) (x y : ℚ) (w h : ℚ)
deriving DecidableEq

/-- The vertical coordinate of a recorded drawing call. -/
def opY : DrawOp → ℚ
  | .text _ _ y _ => y
  | .image _ _ y _ _ => y

/-- The drawn string of a recorded text call (empty for images). -/
def textOf : DrawOp → List Char
  | .text _ _ _ content => content
  | .image _ _ _ _ _ => []

/-- `Renderer::write_lines` (main.rs:329-343): draw each line after an
`ensure_space` check and advance the cursor by the line height. -/
def write_lines (lines : List (List Char)) (font_size indent_mm : ℚ) (s : RState) :
    RState × List DrawOp :=
  let line_height := line_height_mm font_size
  lines.foldl
    (fun acc line =>
      let s1 := ensure_space line_height acc.1
      (⟨s1.cursor_y - line_height, s1.pages⟩,
        acc.2 ++ [DrawOp.text s1.pages (MARGIN_MM + indent_mm) s1.cursor_y line]))
    (s, [])

/-- `Renderer::paragraph` (main.rs:345-350). -/
def paragraph (text : List Char) (s : RState) : RState × List DrawOp :=
  let font_size : ℚ := 11
  let lines := wrap_text text font_size (max_text_width_mm 0)
  let r := write_lines lines font_size 0 s
  (⟨r.1.cursor_y - pt_to_mm 6, r.1.pages⟩, r.2)

/-- The font size selected by `Renderer::heading` for a level (main.rs:353-358). -/
def headingSize (level : ℕ) : ℚ :=
  if level = 1 then 24 else if level = 2 then 18 else if level = 3 then 14 else 12

/-- `Renderer::heading` (main.rs:352-362). -/
def heading (level : ℕ) (text : List Char) (s : RState) : RState × List DrawOp :=
  let font_size := headingSize level
  let lines := wrap_text text font_size (max_text_width_mm 0)
  let r := write_lines lines font_size 0 s
  (⟨r.1.cursor_y - pt_to_mm 8, r.1.pages⟩, r.2)

/-- One iteration of the item loop of `Renderer::list` (main.rs:367-391): a
bullet and the first wrapped line at the same height, continuation lines via
`write_lines`, small spacing after the item.  `wrap_text` never returns `[]`,
so the `match` mirrors the source's `if let Some(first) = lines.first()`. -/
def list_item_step (acc : RState × List DrawOp) (item : List Char) : RState × List DrawOp :=
  let font_size : ℚ := 11
  let indent_mm : ℚ := 6
  let lines := wrap_text item font_size (max_text_width_mm indent_mm)
  let r1 : RState × List DrawOp :=
    match lines with
    | [] => (acc.1, [])
    | first :: _ =>
      let sE := ensure_space (line_height_mm font_size) acc.1
      (⟨sE.cursor_y - line_height_mm font_size, sE.pages⟩,
        [DrawOp.text sE.pages MARGIN_MM sE.cursor_y ['•'],
         DrawOp.text sE.pages (MARGIN_MM + indent_mm) sE.cursor_y first])
  let r2 : RState × List DrawOp :=
    if lines.length > 1 then write_lines (lines.drop 1) font_size indent_mm r1.1
    else (r1.1, [])
  (⟨r2.1.cursor_y - pt_to_mm 2, r2.1.pages⟩, acc.2 ++ r1.2 ++ r2.2)

/-- `Renderer::list` (main.rs:364-393): the item loop followed by the trailing
list spacing. -/
def list (items : List (List Char)) (s : RState) : RState × List DrawOp :=
  let r := items.foldl list_item_step (s, [])
  (⟨r.1.cursor_y - pt_to_mm 4, r.1.pages⟩, r.2)

/-- Model of Rust `f32 as usize`: truncation toward zero, with negative values
saturating to zero.  For nonnegative `q` this is `⌊q⌋`, and for negative `q`
both the Rust cast and `Int.toNat ∘ Int.floor` give `0`. -/
def ratToUsize (q : ℚ) : ℕ := (⌊q⌋).toNat

/-- The hard-split width of `Renderer::code_block` (main.rs:399):
`(mm_to_pt(max_width_mm) / (font_size * 0.6)) as usize` with
`font_size = 9.5` and `indent_mm = 4.0`. -/
def code_max_chars : ℕ :=
  ratToUsize (mm_to_pt (max_text_width_mm 4) / ((19 / 2 : ℚ) * (6 / 10)))

/-- The chunking loop of `Renderer::code_block` (main.rs:402-417): hard-split a
line into consecutive slices of `k` characters (`end = min(start + k, len)`).
The `max k 1` guard only serves Lean's termination checker: in the source
`k = code_max_chars = 87 ≥ 1`, where `max k 1 = k`. -/
def chunksOf (k : ℕ) : List Char → List (List Char)
  | [] => []
  | c :: cs =>
    List.take (max k 1) (c :: cs) :: chunksOf k (List.drop (max k 1) (c :: cs))
termination_by l => l.length
decreasing_by
  simp only [List.length_drop, List.length_cons]
  omega

/-- Helper for `rustLines`: strip one trailing carriage return. -/
def stripCr (l : List Char) : List Char :=
  if l.getLast? = some '\r' then l.dropLast else l

/-- Split a character list at every newline character (each newline starts a
new piece; a string with `n` newlines yields `n + 1` pieces). -/
def splitOnNl : List Char → List (List Char)
  | [] => [[]]
  | c :: cs =>
    if c = '\n' then [] :: splitOnNl cs
    else
      match splitOnNl cs with
      | [] => [[c]]
      | p :: ps => (c :: p) :: ps

/-- Model of Rust `str::lines` (used at main.rs:401): split at `'\n'`, strip a
`'\r'` before each `'\n'`, and drop a final empty piece produced by a trailing
newline. -/
def rustLines (s : List Char) : List (List Char) :=
  let ps := splitOnNl s
  let init := ps.dropLast.map stripCr
  match ps.getLast? with
  | none => []
  | some lastP => if lastP = [] then init else init ++ [lastP]

/-- `Renderer::code_block` (main.rs:395-420): monospace 9.5pt at a 4mm indent;
each source line is hard-split into `code_max_chars`-character chunks, and each
chunk is drawn exactly like a `write_lines` line (the source inlines the same
`ensure_space`/`use_text`/cursor-advance loop). -/
def code_block (text : List Char) (s : RState) : RState × List DrawOp :=
  let font_size : ℚ := 19 / 2
  let indent_mm : ℚ := 4
  let r := write_lines ((rustLines text).flatMap (chunksOf code_max_chars)) font_size indent_mm s
  (⟨r.1.cursor_y - pt_to_mm 6, r.1.pages⟩, r.2)

/-- The cursor advance performed at `Event::Rule` (main.rs:641-643); the spec's
`rule()` layout primitive, inlined in the source's event loop. -/
def rule (s : RState) : RState := ⟨s.cursor_y - pt_to_mm 8, s.pages⟩

/-- Does the destination start with `http://` or `https://` (main.rs:423)? -/
def startsWithHttp (dest : List Char) : Bool :=
  decide (dest.take 7 = ("http://").toList) || decide (dest.take 8 = ("https://").toList)

/-- Model of `Path::is_absolute` for POSIX-style string paths. -/
def isAbsolutePath (p : List Char) : Bool :=
  match p with
  | '/' :: _ => true
  | _ => false

/-- Model of `Path::parent` composed with `unwrap_or(Path::new("."))` as a
plain string (main.rs:430): the characters before the last `'/'` (the empty
string when there is no separator, `"/"` for a top-level absolute path). -/
def parentStr (p : List Char) : List Char :=
  match p.reverse.dropWhile (fun c => c ≠ '/') with
  | [] => []
  | _ :: rest => if rest = [] then ['/'] else rest.reverse

/-- Model of `PathBuf::join` for a relative right operand (main.rs:431). -/
def joinPath (base rel : List Char) : List Char :=
  if base = [] then rel else base ++ '/' :: rel

/-- The image path resolution of `Renderer::image` (main.rs:427-432): an
absolute destination stands alone, a relative one is joined to the markdown
file's directory. -/
def resolveImagePath (markdown_path dest : List Char) : List Char :=
  if isAbsolutePath dest then dest else joinPath (parentStr markdown_path) dest

/-- The geometry computation of `Renderer::image` (main.rs:443-459): physical
size at 96 dpi, then the width cap at the content width, then the height cap at
`MAX_IMAGE_HEIGHT_MM`, compounding the scale.  Returns the final
`(width_mm, height_mm, scale)` variables of the source. -/
def imageGeometry (width_px height_px : ℕ) : ℚ × ℚ × ℚ :=
  let dpi : ℚ := 96
  let width_mm : ℚ := (width_px : ℚ) * (254 / 10) / dpi
  let height_mm : ℚ := (height_px : ℚ) * (254 / 10) / dpi
  let max_width_mm := max_text_width_mm 0
  let scale : ℚ := 1
  let p1 : ℚ × ℚ × ℚ :=
    if width_mm > max_width_mm then
      (max_width_mm / width_mm, max_width_mm, height_mm * (max_width_mm / width_mm))
    else (scale, width_mm, height_mm)
  let p2 : ℚ × ℚ :=
    if p1.2.2 > MAX_IMAGE_HEIGHT_MM then
      (p1.1 * (MAX_IMAGE_HEIGHT_MM / p1.2.2), MAX_IMAGE_HEIGHT_MM)
    else (p1.1, p1.2.2)
  (p1.2.1, p2.2, p2.1)

/-- The external world of `Renderer::image`: which paths exist on disk and the
pixel dimensions `image::open(..).dimensions()` yields (`none` = decode
failure). -/
structure Env where
  fileExists : List Char → Bool
  imageDims : List Char → Option (ℕ × ℕ)

/-- `Renderer::image` (main.rs:422-489).  Web destinations are a successful
no-op; a missing file is a not-found error; otherwise the image is drawn at
the left margin below the cursor, scaled by `imageGeometry`, and the cursor
advances past it plus 6pt spacing.  The drawn extent is the pixel size at
96 dpi times the final scale (the semantics of printpdf's `ImageTransform`). -/
def image (env : Env) (markdown_path dest : List Char) (s : RState) :
    Except String (RState × List DrawOp) :=
  if startsWithHttp dest then .ok (s, [])
  else
    let image_path := resolveImagePath markdown_path dest
    if env.fileExists image_path = false then
      .error ("Image not found: " ++ String.mk image_path)
    else
      match env.imageDims image_path with
      | none => .error ("Failed to open image " ++ String.mk image_path)
      | some (width_px, height_px) =>
        let g := imageGeometry width_px height_px
        let height_mm := g.2.1
        let scale := g.2.2
        let s1 := ensure_space (height_mm + pt_to_mm 6) s
        let y := s1.cursor_y - height_mm
        .ok (⟨y - pt_to_mm 6, s1.pages⟩,
          [DrawOp.image s1.pages MARGIN_MM y
            ((width_px : ℚ) * (254 / 10) / 96 * scale)
            ((height_px : ℚ) * (254 / 10) / 96 * scale)])

/-- The pulldown-cmark events `render_markdown_content` (main.rs:536-645)
matches on; every other event kind is `other` (ignored by the source's
catch-all arms).  Heading levels H1..H6 are carried as 1..6, the mapping the
source applies at main.rs:544-551. -/
inductive MdEvent
  | startParagraph
  | startHeading (level : ℕ)
  | startList
  | startItem
  | startCodeBlock
  | startImage (dest : List Char)
  | endParagraph
  | endHeading
  | endList
  | endItem
  | endCodeBlock
  | endImage
  | text (t : List Char)
  | code (t : List Char)
  | softBreak
  | hardBreak
  | rule
  | other

/-- The accumulator state of `render_markdown_content` (main.rs:526-533). -/
structure Ctx where
  current_text : List Char
  current_heading : Option ℕ
  list_items : List (List Char)
  current_list_item : Option (List Char)
  in_paragraph : Bool
  in_code_block : Bool
  code_text : List Char
  current_image : Option (List Char)

/-- The initial accumulator state of `render_markdown_content`. -/
def ctx0 : Ctx := ⟨[], none, [], none, false, false, [], none⟩

/-- Prepend already-emitted drawing calls to the result of the rest of the
event loop, short-circuiting on error. -/
def mapOps (ops : List DrawOp) :
    Except String (RState × List DrawOp) → Except String (RState × List DrawOp)
  | .error e => .error e
  | .ok (s, ops') => .ok (s, ops ++ ops')

/-- The event loop of `render_markdown_content` (main.rs:536-646), one
constructor per source match arm, threading the accumulator state and the
renderer state and propagating an image error upward. -/
def renderEvents (env : Env) (markdown_path : List Char) :
    List MdEvent → Ctx → RState → Except String (RState × List DrawOp)
  | [], _, s => .ok (s, [])
  | e :: rest, ctx, s =>
    match e with
    | .startParagraph =>
      renderEvents env markdown_path rest
        ⟨[], ctx.current_heading, ctx.list_items, ctx.current_list_item, true,
         ctx.in_code_block, ctx.code_text, ctx.current_image⟩ s
    | .startHeading level =>
      renderEvents env markdown_path rest
        ⟨[], some level, ctx.list_items, ctx.current_list_item, ctx.in_paragraph,
         ctx.in_code_block, ctx.code_text, ctx.current_image⟩ s
    | .startList =>
      renderEvents env markdown_path rest
        ⟨ctx.current_text, ctx.current_heading, [], ctx.current_list_item, ctx.in_paragraph,
         ctx.in_code_block, ctx.code_text, ctx.current_image⟩ s
    | .startItem =>
      renderEvents env markdown_path rest
        ⟨ctx.current_text, ctx.current_heading, ctx.list_items, some [], ctx.in_paragraph,
         ctx.in_code_block, ctx.code_text, ctx.current_image⟩ s
    | .startCodeBlock =>
      renderEvents env markdown_path rest
        ⟨ctx.current_text, ctx.current_heading, ctx.list_items, ctx.current_list_item,
         ctx.in_paragraph, true, [], ctx.current_image⟩ s
    | .startImage dest =>
      renderEvents env markdown_path rest
        ⟨ctx.current_text, ctx.current_heading, ctx.list_items, ctx.current_list_item,
         ctx.in_paragraph, ctx.in_code_block, ctx.code_text, some dest⟩ s
    | .endParagraph =>
      let r := if ctx.in_paragraph then paragraph (trim ctx.current_text) s else (s, [])
      mapOps r.2 (renderEvents env markdown_path rest
        ⟨[], ctx.current_heading, ctx.list_items, ctx.current_list_item, false,
         ctx.in_code_block, ctx.code_text, ctx.current_image⟩ r.1)
    | .endHeading =>
      match ctx.current_heading with
      | some level =>
        let r := heading level (trim ctx.current_text) s
        mapOps r.2 (renderEvents env markdown_path rest
          ⟨[], none, ctx.list_items, ctx.current_list_item, ctx.in_paragraph,
           ctx.in_code_block, ctx.code_text, ctx.current_image⟩ r.1)
      | none =>
        renderEvents env markdown_path rest
          ⟨[], none, ctx.list_items, ctx.current_list_item, ctx.in_paragraph,
           ctx.in_code_block, ctx.code_text, ctx.current_image⟩ s
    | .endList =>
      let r := if ctx.list_items = [] then (s, []) else list ctx.list_items s
      mapOps r.2 (renderEvents env markdown_path rest
        ⟨ctx.current_text, ctx.current_heading, [], ctx.current_list_item, ctx.in_paragraph,
         ctx.in_code_block, ctx.code_text, ctx.current_image⟩ r.1)
    | .endItem =>
      match ctx.current_list_item with
      | some item =>
        renderEvents env markdown_path rest
          ⟨ctx.current_text, ctx.current_heading,
           (if trim item = [] then ctx.list_items else ctx.list_items ++ [trim item]), none,
           ctx.in_paragraph, ctx.in_code_block, ctx.code_text, ctx.current_image⟩ s
      | none => renderEvents env markdown_path rest ctx s
    | .endCodeBlock =>
      let r := if ctx.in_code_block then code_block ctx.code_text s else (s, [])
      mapOps r.2 (renderEvents env markdown_path rest
        ⟨ctx.current_text, ctx.current_heading, ctx.list_items, ctx.current_list_item,
         ctx.in_paragraph, false, [], ctx.current_image⟩ r.1)
    | .endImage =>
      match ctx.current_image with
      | some dest =>
        match image env markdown_path dest s with
        | .error e => .error e
        | .ok (s1, ops1) =>
          mapOps ops1 (renderEvents env markdown_path rest
            ⟨ctx.current_text, ctx.current_heading, ctx.list_items, ctx.current_list_item,
             ctx.in_paragraph, ctx.in_code_block, ctx.code_text, none⟩ s1)
      | none => renderEvents env markdown_path rest ctx s
    | .text t =>
      if ctx.in_code_block then
        renderEvents env markdown_path rest
          ⟨ctx.current_text, ctx.current_heading, ctx.list_items, ctx.current_list_item,
           ctx.in_paragraph, ctx.in_code_block, ctx.code_text ++ t, ctx.current_image⟩ s
      else
        match ctx.current_list_item with
        | some item =>
          renderEvents env markdown_path rest
            ⟨ctx.current_text, ctx.current_heading, ctx.list_items, some (item ++ t),
             ctx.in_paragraph, ctx.in_code_block, ctx.code_text, ctx.current_image⟩ s
        | none =>
          renderEvents env markdown_path rest
            ⟨ctx.current_text ++ t, ctx.current_heading, ctx.list_items, ctx.current_list_item,
             ctx.in_paragraph, ctx.in_code_block, ctx.code_text, ctx.current_image⟩ s
    | .code t =>
      match ctx.current_list_item with
      | some item =>
        renderEvents env markdown_path rest
          ⟨ctx.current_text, ctx.current_heading, ctx.list_items, some (item ++ t),
           ctx.in_paragraph, ctx.in_code_block, ctx.code_text, ctx.current_image⟩ s
      | none =>
        renderEvents env markdown_path rest
          ⟨ctx.current_text ++ t, ctx.current_heading, ctx.list_items, ctx.current_list_item,
           ctx.in_paragraph, ctx.in_code_block, ctx.code_text, ctx.current_image⟩ s
    | .softBreak =>
      if ctx.in_code_block then
        renderEvents env markdown_path rest
          ⟨ctx.current_text, ctx.current_heading, ctx.list_items, ctx.current_list_item,
           ctx.in_paragraph, ctx.in_code_block, ctx.code_text ++ ['\n'], ctx.current_image⟩ s
      else
        renderEvents env markdown_path rest
          ⟨ctx.current_text ++ [' '], ctx.current_heading, ctx.list_items,
           ctx.current_list_item, ctx.in_paragraph, ctx.in_code_block, ctx.code_text,
           ctx.current_image⟩ s
    | .hardBreak =>
      if ctx.in_code_block then
        renderEvents env markdown_path rest
          ⟨ctx.current_text, ctx.current_heading, ctx.list_items, ctx.current_list_item,
           ctx.in_paragraph, ctx.in_code_block, ctx.code_text ++ ['\n'], ctx.current_image⟩ s
      else
        renderEvents env markdown_path rest
          ⟨ctx.current_text ++ ['\n'], ctx.current_heading, ctx.list_items,
           ctx.current_list_item, ctx.in_paragraph, ctx.in_code_block, ctx.code_text,
           ctx.current_image⟩ s
    | .rule => renderEvents env markdown_path rest ctx (rule s)
    | .other => renderEvents env markdown_path rest ctx s

/-- Model of `Path::file_name` for the string path model (main.rs:504-507). -/
def fileName (p : List Char) : List Char :=
  (p.reverse.takeWhile (fun c => c ≠ '/')).reverse

/-- The per-file loop of `render_markdown_pdf` (main.rs:492-519): a level-2
`File: <name>` heading, then the file's event stream.  Reading the file and
parsing it are external; a file is therefore given as its path together with
its parsed event stream. -/
def renderFiles (env : Env) :
    List (List Char × List MdEvent) → RState → Except String (RState × List DrawOp)
  | [], s => .ok (s, [])
  | (path, evs) :: restFiles, s =>
    let r := heading 2 (("File: ").toList ++ fileName path) s
    match renderEvents env path evs ctx0 r.1 with
    | .error e => .error e
    | .ok (s2, ops2) =>
      match renderFiles env restFiles s2 with
      | .error e => .error e
      | .ok (s3, ops3) => .ok (s3, r.2 ++ ops2 ++ ops3)

/-- `render_markdown_pdf` (main.rs:492-519) from the initial renderer state.
In the source the output file is created (main.rs:513) only after every file
has rendered successfully, so an `.error` result models a conversion that
aborts with no output file written. -/
def render_markdown_pdf (env : Env) (files : List (List Char × List MdEvent)) :
    Except String (RState × List DrawOp) :=
  renderFiles env files initState

/-- Is an `Except` result a success? -/
def exceptIsOk : Except String (RState × List DrawOp) → Bool
  | .ok _ => true
  | .error _ => false

/-- The final cursor of a successful render (0 on error). -/
def cursorOf : Except String (RState × List DrawOp) → ℚ
  | .ok (s, _) => s.cursor_y
  | .error _ => 0

/-- The final page count of a successful render (0 on error). -/
def pagesOf : Except String (RState × List DrawOp) → ℕ
  | .ok (s, _) => s.pages
  | .error _ => 0

/-- A path component (`std::path::Component`): the root directory or a named
component. -/
inductive Comp
  | root
  | name (s : String)
deriving DecidableEq

/-- Model of `Path::parent` on component lists: `None` for an empty path and
for the bare root, otherwise the path without its last component. -/
def parentOpt : List Comp → Option (List Comp)
  | [] => none
  | [Comp.root] => none
  | p => some p.dropLast

/-- Length of the common component prefix of two paths. -/
def matchLen : List Comp → List Comp → ℕ
  | [], _ => 0
  | _ :: _, [] => 0
  | a :: as_, b :: bs => if a = b then matchLen as_ bs + 1 else 0

/-- `common_root` (main.rs:178-203).  The source's inner loop lowers
`common_len` to the first index below `min common_len components.len()` where
`components` and `first` disagree; that value is
`min (min common_len components.length) (matchLen first components)`. -/
def common_root (paths : List (List Comp)) : Option (List Comp) :=
  match paths with
  | [] => none
  | first :: rest =>
    let common_len :=
      rest.foldl (fun cl p => min (min cl p.length) (matchLen first p)) first.length
    if common_len = 0 then none else some (first.take common_len)

/-- One input of `process_input`: its path and whether it is a file (a `.zip`
archive counts as a file: both arms at main.rs:62-69 push the parent). -/
structure InputLoc where
  path : List Comp
  isFile : Bool

/-- The `output_roots` accumulation of `process_input` (main.rs:62-73): the
parent for a file input (`"."` when the path has no parent), the path itself
for a directory input. -/
def output_roots (inputs : List InputLoc) : List (List Comp) :=
  inputs.map (fun i =>
    if i.isFile then (parentOpt i.path).getD [Comp.name "."] else i.path)

/-- The output-root computation of `process_input` (main.rs:76-79):
`common_root(&output_roots).filter(|p| p.parent().is_some()).unwrap_or(output_roots[0])`.
The file-system scan feeding `markdown_files`/`image_files` is external I/O
and not modelled. -/
def process_input_root (inputs : List InputLoc) : List Comp :=
  let roots := output_roots inputs
  match common_root roots with
  | some cr => if (parentOpt cr).isSome then cr else roots.headD []
  | none => roots.headD []

/-- The longest common component prefix of two paths. -/
def lcpPair (a b : List Comp) : List Comp := a.take (matchLen a b)

/-- The longest common component prefix of a list of paths (the deepest common
ancestor in the component-prefix order); `[]` when there is none. -/
def lcpAll : List (List Comp) → List Comp
  | [] => []
  | first :: rest => rest.foldl lcpPair first

/-- Word-level mirror of the `wrap_text` accumulator, used to prove properties
of `wrapStep` by simulation: a line is a group of words rather than a string. -/
structure WSt where
  lines : List (List (List Char))
  current : List (List Char)

/-- The estimated width of a line assembled from `ws`: its character count
(words plus one space per separation) times the average character width. -/
def lineWidth (avg : ℚ) (ws : List (List Char)) : ℚ := ((joinSp ws).length : ℚ) * avg

/-- Word-level mirror of `wrapStep` (proved equivalent below). -/
def wrapWStep (avg maxW : ℚ) (st : WSt) (w : List Char) : WSt :=
  let word_width := (w.length : ℚ) * avg
  let next_width :=
    if st.current = [] then word_width else lineWidth avg st.current + avg + word_width
  let st1 :=
    if next_width > maxW ∧ st.current ≠ [] then WSt.mk (st.lines ++ [st.current]) []
    else st
  WSt.mk st1.lines (st1.current ++ [w])

/-- The word-level state abstracted back to the `wrap_text` accumulator. -/
def absW (avg : ℚ) (st : WSt) : List (List Char) × List Char × ℚ :=
  (st.lines.map joinSp, joinSp st.current, lineWidth avg st.current)

/-- A word produced by `splitWs`: non-empty and whitespace-free. -/
def goodWord (w : List Char) : Prop := w ≠ [] ∧ ∀ c ∈ w, c.isWhitespace = false

/-- All words of a list are `goodWord`. -/
def goodWords (ws : List (List Char)) : Prop := ∀ w ∈ ws, goodWord w

/-- A closed environment for concrete instantiations: no file exists and no
image decodes. -/
def env0 : Env := ⟨fun _ => false, fun _ => none⟩

/-- A convenient word boundary condition: the empty string or a string whose
first character is whitespace. -/
def wsBoundary : List Char → Prop
  | [] => True
  | d :: _ => d.isWhitespace = true

theorem wordsAux_chars (s : List Char) : ∀ w ∈ wordsAux s, ∀ c ∈ w, c.isWhitespace = false := by
  induction s with
  | nil => intro w hw; simp [wordsAux] at hw
  | cons c cs ih =>
    intro w hw d hd
    by_cases hc : c.isWhitespace = true
    · rw [wordsAux, if_pos hc] at hw
      rcases List.mem_cons.mp hw with h | h
      · subst h; simp at hd
      · exact ih w h d hd
    · rw [wordsAux, if_neg hc] at hw
      rcases hws : wordsAux cs with _ | ⟨x, xs⟩
      · rw [hws] at hw
        simp at hw
        subst hw
        rcases List.mem_singleton.mp hd with rfl
        simpa using hc
      · rw [hws] at hw
        rcases List.mem_cons.mp hw with h | h
        · subst h
          rcases List.mem_cons.mp hd with rfl | h'
          · simpa using hc
          · exact ih x (hws ▸ List.mem_cons_self x xs) d h'
        · exact ih w (hws ▸ List.mem_cons_of_mem x h) d hd

theorem splitWs_good (s : List Char) : goodWords (splitWs s) := by
  intro w hw
  rw [splitWs] at hw
  have h := List.mem_filter.mp hw
  refine ⟨by simpa using h.2, wordsAux_chars s w h.1⟩

theorem splitWs_cons_ws {c : Char} (hc : c.isWhitespace = true) (t : List Char) :
    splitWs (c :: t) = splitWs t := by
  rw [splitWs, splitWs, wordsAux, if_pos hc]
  simp

theorem wordsAux_append_nonws (w t : List Char) (hw : ∀ c ∈ w, c.isWhitespace = false) :
    wordsAux (w ++ t) =
      match wordsAux t with
      | [] => if w = [] then [] else [w]
      | x :: xs => (w ++ x) :: xs := by
  induction w with
  | nil =>
    simp only [List.nil_append]
    rcases wordsAux t with _ | ⟨x, xs⟩ <;> simp
  | cons c cs ih =>
    have hc : c.isWhitespace = false := hw c (List.mem_cons_self c cs)
    have hcs : ∀ d ∈ cs, d.isWhitespace = false := fun d hd => hw d (List.mem_cons_of_mem c hd)
    simp only [List.cons_append]
    rw [wordsAux, if_neg (by simp [hc])]
    rw [ih hcs]
    rcases wordsAux t with _ | ⟨x, xs⟩
    · by_cases hcse : cs = []
      · subst hcse; simp
      · simp [hcse]
    · simp

theorem splitWs_append_word (w t : List Char) (hw : goodWord w) (ht : wsBoundary t) :
    splitWs (w ++ t) = w :: splitWs t := by
  rw [splitWs, wordsAux_append_nonws w t hw.2]
  rcases t with _ | ⟨d, t'⟩
  · simp only [wordsAux]
    rw [if_neg hw.1]
    simp [splitWs, wordsAux, hw.1]
  · have hd : d.isWhitespace = true := ht
    rw [wordsAux, if_pos hd]
    simp only [List.append_nil]
    rw [List.filter_cons_of_pos (by simpa using hw.1)]
    rw [splitWs_cons_ws hd t', splitWs]

theorem joinSp_cons_cons (w w' : List Char) (ws : List (List Char)) :
    joinSp (w :: w' :: ws) = w ++ ' ' :: joinSp (w' :: ws) := by
  rfl

theorem joinSp_append_single (ws : List (List Char)) (w : List Char) (h : ws ≠ []) :
    joinSp (ws ++ [w]) = joinSp ws ++ ' ' :: w := by
  induction ws with
  | nil => exact absurd rfl h
  | cons x xs ih =>
    rcases xs with _ | ⟨y, ys⟩
    · rfl
    · rw [List.cons_append]
      have h1 : x :: ((y :: ys) ++ [w]) = x :: y :: (ys ++ [w]) := by simp
      rw [h1, joinSp_cons_cons]
      have h2 : y :: (ys ++ [w]) = (y :: ys) ++ [w] := by simp
      rw [h2, ih (by simp), joinSp_cons_cons]
      simp

theorem joinSp_eq_nil_iff (ws : List (List Char)) (h : goodWords ws) :
    joinSp ws = [] ↔ ws = [] := by
  constructor
  · intro he
    rcases ws with _ | ⟨w, ws'⟩
    · rfl
    · rcases ws' with _ | ⟨w', ws''⟩
      · exact absurd he (h w (by simp)).1
      · rw [joinSp_cons_cons] at he
        rcases List.append_eq_nil.mp he with ⟨_, h2⟩
        simp at h2
  · intro he; subst he; rfl

theorem joinSp_reverse_head (ws : List (List Char)) (h : goodWords ws) (hne : ws ≠ []) :
    ∃ c r, (joinSp ws).reverse = c :: r ∧ c.isWhitespace = false := by
  induction ws with
  | nil => exact absurd rfl hne
  | cons w ws' ih =>
    rcases ws' with _ | ⟨w', ws''⟩
    · have hw : goodWord w := h w (by simp)
      rcases hr : w.reverse with _ | ⟨c, r⟩
      · exact absurd (List.reverse_eq_nil_iff.mp hr) hw.1
      · refine ⟨c, r, by simpa [joinSp] using hr, ?_⟩
        have : c ∈ w.reverse := by rw [hr]; simp
        exact hw.2 c (List.mem_reverse.mp this)
    · have h' : goodWords (w' :: ws'') := fun x hx => h x (List.mem_cons_of_mem w hx)
      rcases ih h' (by simp) with ⟨c, r, hcr, hc⟩
      refine ⟨c, r ++ ' ' :: w.reverse, ?_, hc⟩
      rw [joinSp_cons_cons, List.reverse_append, List.reverse_cons, hcr]
      simp

theorem trimEnd_joinSp (ws : List (List Char)) (h : goodWords ws) (hne : ws ≠ []) :
    trimEnd (joinSp ws) = joinSp ws := by
  rcases joinSp_reverse_head ws h hne with ⟨c, r, hcr, hc⟩
  rw [trimEnd, hcr, List.dropWhile_cons_of_neg (by simp [hc]), ← hcr, List.reverse_reverse]

theorem splitWs_joinSp_app (g : List (List Char)) (t : List Char) (hg : goodWords g)
    (ht : wsBoundary t) : splitWs (joinSp g ++ t) = g ++ splitWs t := by
  induction g with
  | nil => simp [joinSp]
  | cons w g' ih =>
    rcases g' with _ | ⟨w', g''⟩
    · exact splitWs_append_word w t (hg w (by simp)) ht
    · rw [joinSp_cons_cons, List.append_assoc, List.cons_append]
      rw [splitWs_append_word w (' ' :: (joinSp (w' :: g'') ++ t)) (hg w (by simp)) (by simp [wsBoundary])]
      rw [splitWs_cons_ws (by simp) _]
      rw [ih (fun x hx => hg x (List.mem_cons_of_mem w hx))]
      rfl

theorem splitWs_joinSp (g : List (List Char)) (hg : goodWords g) :
    splitWs (joinSp g) = g := by
  have := splitWs_joinSp_app g [] hg (by trivial)
  simpa [splitWs, wordsAux] using this

theorem splitWs_joinSp_groups (gs : List (List (List Char)))
    (h : ∀ g ∈ gs, g ≠ [] ∧ goodWords g) :
    splitWs (joinSp (gs.map joinSp)) = gs.flatten := by
  induction gs with
  | nil => simp [joinSp, splitWs, wordsAux]
  | cons g gs' ih =>
    rcases gs' with _ | ⟨g', gs''⟩
    · simp only [List.map_cons, List.map_nil, List.flatten]
      rw [show joinSp [joinSp g] = joinSp g from rfl]
      rw [splitWs_joinSp g (h g (by simp)).2]
      simp
    · rw [List.map_cons, List.map_cons, joinSp_cons_cons]
      rw [splitWs_joinSp_app g _ (h g (by simp)).2 (by simp [wsBoundary])]
      rw [splitWs_cons_ws (by simp) _]
      have hih := ih (fun x hx => h x (List.mem_cons_of_mem g hx))
      rw [List.map_cons] at hih
      rw [hih]
      rfl

theorem splitWs_dropLeadSpace (l : List Char) : splitWs (dropLeadSpace l) = splitWs l := by
  rcases l with _ | ⟨c, r⟩
  · rfl
  · simp only [dropLeadSpace]
    by_cases hc : c = ' '
    · rw [if_pos hc, hc]
      exact (splitWs_cons_ws (by decide) r).symm
    · rw [if_neg hc]

theorem splitWs_cons_cons_ws {c d : Char} (hc : c.isWhitespace = false)
    (hd : d.isWhitespace = true) (Z : List Char) :
    splitWs (c :: d :: Z) = [c] :: splitWs Z := by
  have h1 : wordsAux (d :: Z) = [] :: wordsAux Z := by rw [wordsAux, if_pos hd]
  rw [splitWs, wordsAux, if_neg (by simp [hc]), h1]
  rw [List.filter_cons_of_pos (by simp)]
  rfl

theorem splitWs_cons_congr {c d : Char} (hc : c.isWhitespace = false)
    (hd : d.isWhitespace = false) (X Y : List Char)
    (h : splitWs (d :: X) = splitWs (d :: Y)) :
    splitWs (c :: d :: X) = splitWs (c :: d :: Y) := by
  obtain ⟨w, rest, hw, hwne⟩ : ∃ w rest, wordsAux (d :: X) = w :: rest ∧ w ≠ [] := by
    rw [wordsAux, if_neg (by simp [hd])]
    rcases wordsAux X with _ | ⟨x, xs⟩
    · exact ⟨[d], [], rfl, by simp⟩
    · exact ⟨d :: x, xs, rfl, by simp⟩
  obtain ⟨w', rest', hw', hwne'⟩ : ∃ w rest, wordsAux (d :: Y) = w :: rest ∧ w ≠ [] := by
    rw [wordsAux, if_neg (by simp [hd])]
    rcases wordsAux Y with _ | ⟨x, xs⟩
    · exact ⟨[d], [], rfl, by simp⟩
    · exact ⟨d :: x, xs, rfl, by simp⟩
  rw [splitWs, splitWs, hw, hw'] at h
  rw [List.filter_cons_of_pos (by simpa using hwne),
      List.filter_cons_of_pos (by simpa using hwne')] at h
  have hww : w = w' := (List.cons.injEq _ _ _ _ ▸ h).1
  have hrr : rest.filter (fun v => v ≠ []) = rest'.filter (fun v => v ≠ []) := by
    have := (List.cons.injEq _ _ _ _ ▸ h).2
    exact this
  have eX : splitWs (c :: d :: X) = (c :: w) :: rest.filter (fun v => v ≠ []) := by
    rw [splitWs, wordsAux, if_neg (by simp [hc]), hw]
    rw [List.filter_cons_of_pos (by simp)]
  have eY : splitWs (c :: d :: Y) = (c :: w') :: rest'.filter (fun v => v ≠ []) := by
    rw [splitWs, wordsAux, if_neg (by simp [hc]), hw']
    rw [List.filter_cons_of_pos (by simp)]
  rw [eX, eY, hww, hrr]

theorem splitWs_collapse (s : List Char) : splitWs (collapse s) = splitWs s := by
  induction s with
  | nil => rfl
  | cons c cs ih =>
    by_cases hc : c.isWhitespace = true
    · have hcol : collapse (c :: cs) = ' ' :: dropLeadSpace (collapse cs) := by
        simp only [collapse]; rw [if_pos hc]
      rw [hcol, splitWs_cons_ws (by decide) _, splitWs_dropLeadSpace, ih, splitWs_cons_ws hc]
    · have hc' : c.isWhitespace = false := by simpa using hc
      have hcol : collapse (c :: cs) = c :: collapse cs := by
        simp only [collapse]; rw [if_neg hc]
      rw [hcol]
      rcases cs with _ | ⟨d, ds⟩
      · rfl
      · by_cases hd : d.isWhitespace = true
        · have hcol2 : collapse (d :: ds) = ' ' :: dropLeadSpace (collapse ds) := by
            simp only [collapse]; rw [if_pos hd]
          rw [hcol2]
          rw [splitWs_cons_cons_ws hc' (by decide) _, splitWs_cons_cons_ws hc' hd ds]
          rw [splitWs_dropLeadSpace]
          have hds : splitWs (collapse ds) = splitWs ds := by
            have h1 := ih
            rw [hcol2, splitWs_cons_ws (by decide) _, splitWs_dropLeadSpace,
                splitWs_cons_ws hd] at h1
            exact h1
          rw [hds]
        · have hd' : d.isWhitespace = false := by simpa using hd
          have hcol2 : collapse (d :: ds) = d :: collapse ds := by
            simp only [collapse]; rw [if_neg hd]
          rw [hcol2]
          refine splitWs_cons_congr hc' hd' _ _ ?_
          rw [← hcol2]
          exact ih

theorem lineWidth_nil (avg : ℚ) : lineWidth avg [] = 0 := by
  simp [lineWidth, joinSp]

theorem lineWidth_singleton (avg : ℚ) (w : List Char) :
    lineWidth avg [w] = (w.length : ℚ) * avg := by
  simp [lineWidth, joinSp]

theorem lineWidth_append (avg : ℚ) (ws : List (List Char)) (w : List Char) (h : ws ≠ []) :
    lineWidth avg (ws ++ [w]) = lineWidth avg ws + avg + (w.length : ℚ) * avg := by
  rw [lineWidth, lineWidth, joinSp_append_single ws w h]
  rw [List.length_append, List.length_cons]
  push_cast
  ring

theorem wrapStep_eq (avg maxW : ℚ) (lines : List (List Char)) (current : List Char)
    (width : ℚ) (word : List Char) :
    wrapStep avg maxW (lines, current, width) word =
      if current = [] then (lines, word, width + (word.length : ℚ) * avg)
      else if width + avg + (word.length : ℚ) * avg > maxW then
        (lines ++ [trimEnd current], word, 0 + (word.length : ℚ) * avg)
      else (lines, (current ++ [' ']) ++ word, (width + avg) + (word.length : ℚ) * avg) := by
  by_cases hc : current = []
  · subst hc
    simp [wrapStep]
  · simp only [wrapStep, if_neg hc, if_pos hc]
    by_cases hN : width + avg + (word.length : ℚ) * avg > maxW
    · rw [if_pos ⟨hN, hc⟩]
      simp [hc, hN]
    · rw [if_neg (fun hcontra => hN hcontra.1)]
      simp [hc, hN]

theorem wrapWStep_eq (avg maxW : ℚ) (lines : List (List (List Char)))
    (current : List (List Char)) (w : List Char) :
    wrapWStep avg maxW ⟨lines, current⟩ w =
      if current = [] then ⟨lines, [w]⟩
      else if lineWidth avg current + avg + (w.length : ℚ) * avg > maxW then
        ⟨lines ++ [current], [w]⟩
      else ⟨lines, current ++ [w]⟩ := by
  by_cases hc : current = []
  · subst hc
    simp [wrapWStep]
  · simp only [wrapWStep, if_neg hc]
    by_cases hN : lineWidth avg current + avg + (w.length : ℚ) * avg > maxW
    · rw [if_pos ⟨hN, hc⟩, if_pos hN]
      rfl
    · rw [if_neg (fun hcontra => hN hcontra.1), if_neg hN]

theorem wrapStep_sim (avg maxW : ℚ) (st : WSt) (w : List Char)
    (hcur : goodWords st.current) :
    wrapStep avg maxW (absW avg st) w = absW avg (wrapWStep avg maxW st w) := by
  rcases st with ⟨lines, current⟩
  have habs : absW avg ⟨lines, current⟩ =
      (lines.map joinSp, joinSp current, lineWidth avg current) := rfl
  rw [habs, wrapStep_eq, wrapWStep_eq]
  by_cases hc : current = []
  · subst hc
    rw [if_pos (show joinSp ([] : List (List Char)) = [] from rfl), if_pos rfl]
    simp [absW, joinSp, lineWidth]
  · have hj : joinSp current ≠ [] :=
      fun h => hc ((joinSp_eq_nil_iff current hcur).mp h)
    rw [if_neg hj, if_neg hc]
    by_cases hN : lineWidth avg current + avg + (w.length : ℚ) * avg > maxW
    · rw [if_pos hN, if_pos hN]
      rw [trimEnd_joinSp current hcur hc]
      simp [absW, joinSp, lineWidth]
    · rw [if_neg hN, if_neg hN]
      have he : absW avg ⟨lines, current ++ [w]⟩ =
          (lines.map joinSp, joinSp (current ++ [w]), lineWidth avg (current ++ [w])) := rfl
      rw [he, joinSp_append_single current w hc, lineWidth_append avg current w hc]
      simp

theorem wrapWStep_inv (avg maxW : ℚ) (st : WSt) (w : List Char) (hw : goodWord w)
    (hcur : goodWords st.current) (hlines : ∀ g ∈ st.lines, g ≠ [] ∧ goodWords g) :
    goodWords (wrapWStep avg maxW st w).current ∧
      ∀ g ∈ (wrapWStep avg maxW st w).lines, g ≠ [] ∧ goodWords g := by
  rcases st with ⟨lines, current⟩
  rw [wrapWStep_eq]
  by_cases hc : current = []
  · rw [if_pos hc]
    refine ⟨?_, hlines⟩
    intro x hx
    rcases List.mem_singleton.mp hx with rfl
    exact hw
  · rw [if_neg hc]
    by_cases hN : lineWidth avg current + avg + (w.length : ℚ) * avg > maxW
    · rw [if_pos hN]
      refine ⟨?_, ?_⟩
      · intro x hx
        rcases List.mem_singleton.mp hx with rfl
        exact hw
      · intro g hg
        rcases List.mem_append.mp hg with h1 | h1
        · exact hlines g h1
        · rcases List.mem_singleton.mp h1 with rfl
          exact ⟨hc, hcur⟩
    · rw [if_neg hN]
      refine ⟨?_, hlines⟩
      intro x hx
      rcases List.mem_append.mp hx with h1 | h1
      · exact hcur x h1
      · rcases List.mem_singleton.mp h1 with rfl
        exact hw

theorem wrapWFold_inv (avg maxW : ℚ) (ws : List (List Char)) :
    ∀ (st : WSt), goodWords ws → goodWords st.current →
      (∀ g ∈ st.lines, g ≠ [] ∧ goodWords g) →
      goodWords (ws.foldl (wrapWStep avg maxW) st).current ∧
        ∀ g ∈ (ws.foldl (wrapWStep avg maxW) st).lines, g ≠ [] ∧ goodWords g := by
  induction ws with
  | nil => intro st _ h1 h2; exact ⟨h1, h2⟩
  | cons w rest ih =>
    intro st hws h1 h2
    rw [List.foldl_cons]
    have hw : goodWord w := hws w (by simp)
    have hstep := wrapWStep_inv avg maxW st w hw h1 h2
    exact ih _ (fun x hx => hws x (List.mem_cons_of_mem w hx)) hstep.1 hstep.2

theorem wrapFold_sim (avg maxW : ℚ) (ws : List (List Char)) :
    ∀ (st : WSt), goodWords ws → goodWords st.current →
      (∀ g ∈ st.lines, g ≠ [] ∧ goodWords g) →
      ws.foldl (wrapStep avg maxW) (absW avg st) =
        absW avg (ws.foldl (wrapWStep avg maxW) st) := by
  induction ws with
  | nil => intro st _ _ _; rfl
  | cons w rest ih =>
    intro st hws h1 h2
    rw [List.foldl_cons, List.foldl_cons]
    have hw : goodWord w := hws w (by simp)
    rw [wrapStep_sim avg maxW st w h1]
    have hstep := wrapWStep_inv avg maxW st w hw h1 h2
    exact ih _ (fun x hx => hws x (List.mem_cons_of_mem w hx)) hstep.1 hstep.2

theorem wrapWFold_flatten (avg maxW : ℚ) (ws : List (List Char)) :
    ∀ (st : WSt),
      ((ws.foldl (wrapWStep avg maxW) st).lines).flatten ++
          (ws.foldl (wrapWStep avg maxW) st).current =
        st.lines.flatten ++ st.current ++ ws := by
  induction ws with
  | nil => intro st; simp
  | cons w rest ih =>
    intro st
    rw [List.foldl_cons, ih]
    rcases st with ⟨lines, current⟩
    rw [wrapWStep_eq]
    by_cases hc : current = []
    · rw [if_pos hc]
      subst hc
      simp
    · rw [if_neg hc]
      by_cases hN : lineWidth avg current + avg + (w.length : ℚ) * avg > maxW
      · rw [if_pos hN]
        simp
      · rw [if_neg hN]
        simp

theorem wrapWFold_current_ne (avg maxW : ℚ) (ws : List (List Char)) :
    ∀ (st : WSt), ws ≠ [] → (ws.foldl (wrapWStep avg maxW) st).current ≠ [] := by
  induction ws with
  | nil => intro st h; exact absurd rfl h
  | cons w rest ih =>
    intro st _
    rcases hr : rest with _ | ⟨w', rest'⟩
    · rcases st with ⟨lines, current⟩
      simp only [List.foldl_cons, hr, List.foldl_nil]
      rw [wrapWStep_eq]
      split_ifs <;> simp
    · rw [List.foldl_cons]
      exact hr ▸ ih _ (by simp [hr])

theorem wrapWFold_lineOk (avg maxW : ℚ) (ws : List (List Char)) :
    ∀ (st : WSt),
      (∀ g ∈ st.lines, lineWidth avg g ≤ maxW ∨ ∃ u, g = [u]) →
      (st.current = [] ∨ lineWidth avg st.current ≤ maxW ∨ ∃ u, st.current = [u]) →
      (∀ g ∈ (ws.foldl (wrapWStep avg maxW) st).lines,
          lineWidth avg g ≤ maxW ∨ ∃ u, g = [u]) ∧
        ((ws.foldl (wrapWStep avg maxW) st).current = [] ∨
          lineWidth avg (ws.foldl (wrapWStep avg maxW) st).current ≤ maxW ∨
          ∃ u, (ws.foldl (wrapWStep avg maxW) st).current = [u]) := by
  induction ws with
  | nil => intro st h1 h2; exact ⟨h1, h2⟩
  | cons w rest ih =>
    intro st h1 h2
    rw [List.foldl_cons]
    rcases st with ⟨lines, current⟩
    rw [wrapWStep_eq]
    by_cases hc : current = []
    · rw [if_pos hc]
      refine ih _ h1 ?_
      right; right; exact ⟨w, rfl⟩
    · rw [if_neg hc]
      by_cases hN : lineWidth avg current + avg + (w.length : ℚ) * avg > maxW
      · rw [if_pos hN]
        refine ih _ ?_ ?_
        · intro g hg
          rcases List.mem_append.mp hg with hgl | hgl
          · exact h1 g hgl
          · rcases List.mem_singleton.mp hgl with rfl
            rcases h2 with hcontra | hok
            · exact absurd hcontra hc
            · exact hok
        · right; right; exact ⟨w, rfl⟩
      · rw [if_neg hN]
        refine ih _ h1 ?_
        right; left
        rw [lineWidth_append avg current w hc]
        exact le_of_not_lt hN

theorem wrap_text_spec (text : List Char) (fs mw : ℚ) :
    ∃ gs : List (List (List Char)),
      (∀ g ∈ gs, g ≠ [] ∧ goodWords g) ∧
      wrap_text text fs mw = (if gs = [] then [[]] else gs.map joinSp) ∧
      gs.flatten = splitWs text ∧
      (∀ g ∈ gs, lineWidth (fs * (52 / 100)) g ≤ mm_to_pt mw ∨ ∃ u, g = [u]) := by
  set avg := fs * (52 / 100) with havg
  set maxpt := mm_to_pt mw with hmaxpt
  by_cases hws : splitWs text = []
  · refine ⟨[], by simp, ?_, by simp [hws], by simp⟩
    simp only [wrap_text, hws, List.foldl_nil]
    simp
  · set stF := (splitWs text).foldl (wrapWStep avg maxpt) ⟨[], []⟩ with hstF
    have hgood : goodWords (splitWs text) := splitWs_good text
    have hinv := wrapWFold_inv avg maxpt (splitWs text) ⟨[], []⟩ hgood
      (by intro x hx; simp at hx) (by intro g hg; simp at hg)
    have hcur : stF.current ≠ [] := wrapWFold_current_ne avg maxpt (splitWs text) ⟨[], []⟩ hws
    have hjcur : joinSp stF.current ≠ [] :=
      fun h => hcur ((joinSp_eq_nil_iff _ hinv.1).mp h)
    have habs0 : absW avg ⟨[], []⟩ = ([], [], 0) := by
      simp [absW, joinSp, lineWidth]
    have hsim := wrapFold_sim avg maxpt (splitWs text) ⟨[], []⟩ hgood
      (by intro x hx; simp at hx) (by intro g hg; simp at hg)
    have hfin : (splitWs text).foldl (wrapStep avg maxpt) ([], [], 0) =
        (stF.lines.map joinSp, joinSp stF.current, lineWidth avg stF.current) := by
      rw [← habs0]
      exact hsim
    have hflat := wrapWFold_flatten avg maxpt (splitWs text) ⟨[], []⟩
    have hok := wrapWFold_lineOk avg maxpt (splitWs text) ⟨[], []⟩
      (by intro g hg; simp at hg) (by left; rfl)
    refine ⟨stF.lines ++ [stF.current], ?_, ?_, ?_, ?_⟩
    · intro g hg
      rcases List.mem_append.mp hg with h | h
      · exact hinv.2 g h
      · rcases List.mem_singleton.mp h with rfl
        exact ⟨hcur, hinv.1⟩
    · simp only [wrap_text]
      rw [← havg, ← hmaxpt, hfin]
      rw [if_pos hjcur]
      rw [trimEnd_joinSp _ hinv.1 hcur]
      rw [if_neg (by simp)]
      simp
    · have h0 : (⟨[], []⟩ : WSt).lines.flatten ++ (⟨[], []⟩ : WSt).current ++ splitWs text =
          splitWs text := by simp
      rw [← h0, ← hflat]
      simp
    · intro g hg
      rcases List.mem_append.mp hg with h | h
      · exact hok.1 g h
      · rcases List.mem_singleton.mp h with rfl
        rcases hok.2 with hcontra | hrest
        · exact absurd hcontra hcur
        · exact hrest

/-- C3: `wrap_text` always returns at least one line; a whitespace-only (or
empty) input yields the single empty line; and splitting the space-join of the
output recovers exactly the whitespace-separated words of the input, in order,
with no omissions or duplications. -/
theorem wrap_text_words_preserved (text : List Char) (fs mw : ℚ) :
    wrap_text text fs mw ≠ [] ∧
      splitWs (joinSp (wrap_text text fs mw)) = splitWs text ∧
      (splitWs text = [] → wrap_text text fs mw = [[]]) := by
  obtain ⟨gs, hgs, hout, hflat, _⟩ := wrap_text_spec text fs mw
  by_cases hgse : gs = []
  · subst hgse
    rw [if_pos rfl] at hout
    refine ⟨by simp [hout], ?_, fun _ => hout⟩
    rw [hout, ← hflat]
    rfl
  · rw [if_neg hgse] at hout
    refine ⟨by simp [hout, hgse], ?_, ?_⟩
    · rw [hout, splitWs_joinSp_groups gs hgs, hflat]
    · intro he
      rw [he] at hflat
      exfalso
      rcases gs with _ | ⟨g, gs'⟩
      · exact hgse rfl
      · have hg : g ≠ [] := (hgs g (by simp)).1
        have : g ++ gs'.flatten = [] := by simpa using hflat
        exact hg (List.append_eq_nil.mp this).1

/-- C4: every wrapped line's estimated width (its character count, one per
letter and one per separating space, times `font_size * 0.52`) fits in the
requested width, except that a line made of a single word may exceed it.
The width budget is assumed nonnegative (widths in the program are positive
page measurements). -/
theorem wrap_text_width_le (text : List Char) (fs mw : ℚ) (hmw : 0 ≤ mw) :
    ∀ line ∈ wrap_text text fs mw,
      ((line.length : ℚ) * (fs * (52 / 100)) ≤ mm_to_pt mw ∨ (splitWs line).length = 1) := by
  obtain ⟨gs, hgs, hout, _, hok⟩ := wrap_text_spec text fs mw
  intro line hline
  by_cases hgse : gs = []
  · subst hgse
    rw [if_pos rfl] at hout
    rw [hout] at hline
    rcases List.mem_singleton.mp hline with rfl
    left
    simp only [List.length_nil, Nat.cast_zero, zero_mul]
    rw [mm_to_pt]
    positivity
  · rw [if_neg hgse] at hout
    rw [hout] at hline
    rcases List.mem_map.mp hline with ⟨g, hgmem, rfl⟩
    rcases hok g hgmem with hw | ⟨u, rfl⟩
    · left
      rw [lineWidth] at hw
      exact hw
    · right
      have hu : goodWords [u] := (hgs [u] hgmem).2
      rw [show joinSp [u] = u from rfl]
      have := splitWs_joinSp [u] hu
      rw [show joinSp [u] = u from rfl] at this
      rw [this]
      rfl

/-- C10: `wrap_text` depends only on the whitespace-separated words of its
input, so collapsing every maximal whitespace run (including the newlines that
hard breaks contribute outside code blocks) to a single space does not change
its output. -/
theorem wrap_text_collapse_ws (text : List Char) (fs mw : ℚ) :
    wrap_text (collapse text) fs mw = wrap_text text fs mw := by
  simp only [wrap_text]
  rw [splitWs_collapse]

theorem wrap_text_words_preserved_witness :
    wrap_text (" hello  world ").toList 11 180 ≠ [] ∧
      splitWs (joinSp (wrap_text (" hello  world ").toList 11 180)) =
        splitWs (" hello  world ").toList ∧
      (splitWs (" hello  world ").toList = [] →
        wrap_text (" hello  world ").toList 11 180 = [[]]) :=
  wrap_text_words_preserved (" hello  world ").toList 11 180

theorem wrap_text_singleton_eval : wrap_text ("hi").toList 11 180 = [("hi").toList] := by
  have hsplit : splitWs ("hi").toList = [("hi").toList] := by decide
  have htrim : trimEnd ("hi").toList = ("hi").toList := by decide
  have hne : ("hi").toList ≠ [] := by decide
  simp only [wrap_text, hsplit, List.foldl_cons, List.foldl_nil,
    wrapStep_eq (11 * (52 / 100)) (mm_to_pt 180) [] [] 0 (("hi").toList)]
  simp [hne]
  decide

theorem wrap_text_width_le_witness :
    (0 : ℚ) ≤ 180 ∧
      (((("hi").toList.length : ℚ)) * (11 * (52 / 100)) ≤ mm_to_pt 180 ∨
        (splitWs ("hi").toList).length = 1) :=
  ⟨by norm_num,
    wrap_text_width_le ("hi").toList 11 180 (by norm_num)
      ("hi").toList (by rw [wrap_text_singleton_eval]; exact List.mem_singleton_self _)⟩

/-- C2 counterexample: at a stable cursor 282 with height 268 (more than the
writable extent `H − 2M = 267`), `ensure_space` creates a page on the first
call AND on the second call: the claim's universal quantification over heights
fails. -/
theorem ensure_space_double_page :
    (ensure_space 268 (RState.mk 282 0)).pages = 1 ∧
      (ensure_space 268 (ensure_space 268 (RState.mk 282 0))).pages = 2 := by
  have h1 : ensure_space 268 (RState.mk 282 0) = add_page (RState.mk 282 0) := by
    rw [ensure_space, if_pos (by show (282 : ℚ) - 268 < MARGIN_MM; rw [MARGIN_MM]; norm_num)]
  have hcond : (add_page (RState.mk 282 0)).cursor_y - 268 < MARGIN_MM := by
    show PAGE_HEIGHT_MM - MARGIN_MM - 268 < MARGIN_MM
    rw [PAGE_HEIGHT_MM, MARGIN_MM]
    norm_num
  have h2 : ensure_space 268 (add_page (RState.mk 282 0)) =
      add_page (add_page (RState.mk 282 0)) := by
    rw [ensure_space, if_pos hcond]
  rw [h1, h2]
  exact ⟨rfl, rfl⟩

/-- C2 amended: for every cursor state and every height that fits the writable
extent of a page (`height ≤ PAGE_HEIGHT_MM − 2 * MARGIN_MM`, true of every
height the program passes), a second consecutive `ensure_space` with the same
height is a no-op, so at most one page is created. -/
theorem ensure_space_idempotent (h : ℚ) (s : RState)
    (hh : h ≤ PAGE_HEIGHT_MM - 2 * MARGIN_MM) :
    ensure_space h (ensure_space h s) = ensure_space h s := by
  by_cases h1 : s.cursor_y - h < MARGIN_MM
  · have e1 : ensure_space h s = add_page s := by rw [ensure_space, if_pos h1]
    have h2 : ¬((add_page s).cursor_y - h < MARGIN_MM) := by
      show ¬(PAGE_HEIGHT_MM - MARGIN_MM - h < MARGIN_MM)
      rw [PAGE_HEIGHT_MM, MARGIN_MM]
      rw [PAGE_HEIGHT_MM, MARGIN_MM] at hh
      simp only [not_lt]
      linarith
    rw [e1, ensure_space, if_neg h2]
  · have e1 : ensure_space h s = s := by rw [ensure_space, if_neg h1]
    rw [e1]
    exact e1

theorem ensure_space_idempotent_witness :
    (100 : ℚ) ≤ PAGE_HEIGHT_MM - 2 * MARGIN_MM ∧
      ensure_space 100 (ensure_space 100 (RState.mk 50 3)) =
        ensure_space 100 (RState.mk 50 3) :=
  ⟨by rw [PAGE_HEIGHT_MM, MARGIN_MM]; norm_num,
    ensure_space_idempotent 100 (RState.mk 50 3)
      (by rw [PAGE_HEIGHT_MM, MARGIN_MM]; norm_num)⟩

/-- C7: an image whose destination starts with `http://` or `https://` is a
successful no-op: no drawing call is recorded, the renderer state is returned
unchanged, and the result does not depend on the file system (the environment
is universally quantified and untouched). -/
theorem image_web_noop (env : Env) (markdown_path dest : List Char) (s : RState)
    (hweb : startsWithHttp dest = true) :
    image env markdown_path dest s = .ok (s, []) := by
  rw [image, if_pos hweb]

theorem image_web_noop_witness :
    startsWithHttp ("http://example.com/a.png").toList = true ∧
      image env0 ("doc.md").toList ("http://example.com/a.png").toList (RState.mk 100 2) =
        .ok (RState.mk 100 2, []) :=
  ⟨by decide, image_web_noop env0 ("doc.md").toList ("http://example.com/a.png").toList
    (RState.mk 100 2) (by decide)⟩

theorem imageGeometry_wide_eval (width_px height_px : ℕ)
    (hw : (width_px : ℚ) * (254 / 10) / 96 > max_text_width_mm 0) :
    imageGeometry width_px height_px =
      (if (height_px : ℚ) * (254 / 10) / 96 *
            (max_text_width_mm 0 / ((width_px : ℚ) * (254 / 10) / 96)) >
          MAX_IMAGE_HEIGHT_MM then
        (max_text_width_mm 0, MAX_IMAGE_HEIGHT_MM,
          max_text_width_mm 0 / ((width_px : ℚ) * (254 / 10) / 96) *
            (MAX_IMAGE_HEIGHT_MM /
              ((height_px : ℚ) * (254 / 10) / 96 *
                (max_text_width_mm 0 / ((width_px : ℚ) * (254 / 10) / 96)))))
      else
        (max_text_width_mm 0,
          (height_px : ℚ) * (254 / 10) / 96 *
            (max_text_width_mm 0 / ((width_px : ℚ) * (254 / 10) / 96)),
          max_text_width_mm 0 / ((width_px : ℚ) * (254 / 10) / 96))) := by
  simp only [imageGeometry]
  rw [if_pos hw]
  by_cases hh : (height_px : ℚ) * (254 / 10) / 96 *
      (max_text_width_mm 0 / ((width_px : ℚ) * (254 / 10) / 96)) > MAX_IMAGE_HEIGHT_MM
  · rw [if_pos hh]
    simp [hh]
  · rw [if_neg hh]
    simp [hh]

/-- C5: for an image whose natural width (pixels at 96 dpi) exceeds the
available content width, the width-stage scale makes the drawn width exactly
the content width; if the width-scaled height still exceeds
`MAX_IMAGE_HEIGHT_MM`, the compounded scale makes the drawn height exactly
`MAX_IMAGE_HEIGHT_MM` (and the reserved height variable equals it); in both
stages the drawn width and height are the natural sizes times one common
scale, so the aspect ratio is preserved exactly. -/
theorem image_scaling_spec (width_px height_px : ℕ)
    (hw : (width_px : ℚ) * (254 / 10) / 96 > max_text_width_mm 0) :
    (imageGeometry width_px height_px).1 = max_text_width_mm 0 ∧
      ((height_px : ℚ) * (254 / 10) / 96 *
            (max_text_width_mm 0 / ((width_px : ℚ) * (254 / 10) / 96)) ≤
          MAX_IMAGE_HEIGHT_MM →
        (width_px : ℚ) * (254 / 10) / 96 * (imageGeometry width_px height_px).2.2 =
            max_text_width_mm 0 ∧
          (imageGeometry width_px height_px).2.1 =
            (height_px : ℚ) * (254 / 10) / 96 * (imageGeometry width_px height_px).2.2) ∧
      ((height_px : ℚ) * (254 / 10) / 96 *
            (max_text_width_mm 0 / ((width_px : ℚ) * (254 / 10) / 96)) >
          MAX_IMAGE_HEIGHT_MM →
        (height_px : ℚ) * (254 / 10) / 96 * (imageGeometry width_px height_px).2.2 =
            MAX_IMAGE_HEIGHT_MM ∧
          (imageGeometry width_px height_px).2.1 = MAX_IMAGE_HEIGHT_MM) ∧
      (width_px : ℚ) * (254 / 10) / 96 * (imageGeometry width_px height_px).2.2 *
          ((height_px : ℚ) * (254 / 10) / 96) =
        (height_px : ℚ) * (254 / 10) / 96 * (imageGeometry width_px height_px).2.2 *
          ((width_px : ℚ) * (254 / 10) / 96) := by
  have hmaxw : (0 : ℚ) < max_text_width_mm 0 := by
    rw [max_text_width_mm, PAGE_WIDTH_MM, MARGIN_MM]
    norm_num
  have hwpos : (0 : ℚ) < (width_px : ℚ) * (254 / 10) / 96 := lt_trans hmaxw hw
  have hwne : ((width_px : ℚ) * (254 / 10) / 96) ≠ 0 := ne_of_gt hwpos
  rw [imageGeometry_wide_eval width_px height_px hw]
  by_cases hh : (height_px : ℚ) * (254 / 10) / 96 *
      (max_text_width_mm 0 / ((width_px : ℚ) * (254 / 10) / 96)) > MAX_IMAGE_HEIGHT_MM
  · rw [if_pos hh]
    have hhpos : (0 : ℚ) < (height_px : ℚ) * (254 / 10) / 96 *
        (max_text_width_mm 0 / ((width_px : ℚ) * (254 / 10) / 96)) := by
      have : (0 : ℚ) < MAX_IMAGE_HEIGHT_MM := by rw [MAX_IMAGE_HEIGHT_MM]; norm_num
      linarith
    have hhne : (height_px : ℚ) * (254 / 10) / 96 *
        (max_text_width_mm 0 / ((width_px : ℚ) * (254 / 10) / 96)) ≠ 0 := ne_of_gt hhpos
    refine ⟨rfl, fun hcontra => absurd hh (not_lt.mpr hcontra), fun _ => ⟨?_, rfl⟩, by ring⟩
    have hpx : ((width_px : ℚ)) ≠ 0 := by
      intro h0
      rw [h0] at hwpos
      norm_num at hwpos
    have hpy : ((height_px : ℚ)) ≠ 0 := by
      intro h0
      rw [h0] at hhpos
      norm_num at hhpos
    field_simp
    ring
  · rw [if_neg hh]
    refine ⟨rfl, fun _ => ⟨?_, rfl⟩, fun hcontra => absurd hcontra hh, by ring⟩
    have hpx : ((width_px : ℚ)) ≠ 0 := by
      intro h0
      rw [h0] at hwpos
      norm_num at hwpos
    field_simp
    ring

theorem image_scaling_spec_witness :
    ((1500 : ℕ) : ℚ) * (254 / 10) / 96 > max_text_width_mm 0 ∧
      ((imageGeometry 1500 800).1 = max_text_width_mm 0 ∧
        (((800 : ℕ) : ℚ) * (254 / 10) / 96 *
              (max_text_width_mm 0 / (((1500 : ℕ) : ℚ) * (254 / 10) / 96)) ≤
            MAX_IMAGE_HEIGHT_MM →
          ((1500 : ℕ) : ℚ) * (254 / 10) / 96 * (imageGeometry 1500 800).2.2 =
              max_text_width_mm 0 ∧
            (imageGeometry 1500 800).2.1 =
              ((800 : ℕ) : ℚ) * (254 / 10) / 96 * (imageGeometry 1500 800).2.2) ∧
        (((800 : ℕ) : ℚ) * (254 / 10) / 96 *
              (max_text_width_mm 0 / (((1500 : ℕ) : ℚ) * (254 / 10) / 96)) >
            MAX_IMAGE_HEIGHT_MM →
          ((800 : ℕ) : ℚ) * (254 / 10) / 96 * (imageGeometry 1500 800).2.2 =
              MAX_IMAGE_HEIGHT_MM ∧
            (imageGeometry 1500 800).2.1 = MAX_IMAGE_HEIGHT_MM) ∧
        ((1500 : ℕ) : ℚ) * (254 / 10) / 96 * (imageGeometry 1500 800).2.2 *
            (((800 : ℕ) : ℚ) * (254 / 10) / 96) =
          ((800 : ℕ) : ℚ) * (254 / 10) / 96 * (imageGeometry 1500 800).2.2 *
            (((1500 : ℕ) : ℚ) * (254 / 10) / 96)) :=
  ⟨by rw [max_text_width_mm, PAGE_WIDTH_MM, MARGIN_MM]; norm_num,
    image_scaling_spec 1500 800
      (by rw [max_text_width_mm, PAGE_WIDTH_MM, MARGIN_MM]; norm_num)⟩

theorem chunksOf_ne_nil (k : ℕ) (c : Char) (cs : List Char) :
    chunksOf k (c :: cs) ≠ [] := by
  rw [chunksOf]
  simp

theorem chunksOf_flatten (k : ℕ) (l : List Char) : (chunksOf k l).flatten = l := by
  generalize hn : l.length = n
  induction n using Nat.strong_induction_on generalizing l with
  | _ n ih =>
    rcases l with _ | ⟨c, cs⟩
    · rw [chunksOf]
      rfl
    · rw [chunksOf]
      rw [List.flatten_cons]
      rw [ih ((List.drop (max k 1) (c :: cs)).length)
        (by subst hn; simp only [List.length_drop, List.length_cons]; omega) _ rfl]
      exact List.take_append_drop _ _

theorem chunksOf_length_le (k : ℕ) (l : List Char) :
    ∀ ch ∈ chunksOf k l, ch.length ≤ max k 1 := by
  generalize hn : l.length = n
  induction n using Nat.strong_induction_on generalizing l with
  | _ n ih =>
    rcases l with _ | ⟨c, cs⟩
    · rw [chunksOf]
      simp
    · rw [chunksOf]
      intro ch hch
      rcases List.mem_cons.mp hch with rfl | hmem
      · simp only [List.length_take]
        omega
      · exact ih ((List.drop (max k 1) (c :: cs)).length)
          (by subst hn; simp only [List.length_drop, List.length_cons]; omega) _ rfl ch hmem

theorem chunksOf_dropLast_length (k : ℕ) (l : List Char) :
    ∀ ch ∈ (chunksOf k l).dropLast, ch.length = max k 1 := by
  generalize hn : l.length = n
  induction n using Nat.strong_induction_on generalizing l with
  | _ n ih =>
    rcases l with _ | ⟨c, cs⟩
    · rw [chunksOf]
      simp
    · rw [chunksOf]
      rcases hdrop : List.drop (max k 1) (c :: cs) with _ | ⟨d, ds⟩
      · simp [chunksOf]
      · intro ch hch
        rw [List.dropLast_cons_of_ne_nil (chunksOf_ne_nil k d ds)] at hch
        have hldrop := congrArg List.length hdrop
        simp only [List.length_drop, List.length_cons] at hldrop
        rcases List.mem_cons.mp hch with rfl | hmem
        · simp only [List.length_take, List.length_cons]
          omega
        · have hn' : cs.length + 1 = n := by simpa using hn
          exact ih (d :: ds).length (by simp only [List.length_cons]; omega) _ rfl ch hmem

theorem write_lines_fold_texts (lines : List (List Char)) (font_size indent_mm : ℚ) :
    ∀ (s : RState) (acc : List DrawOp),
      ((lines.foldl
          (fun acc line =>
            let s1 := ensure_space (line_height_mm font_size) acc.1
            (⟨s1.cursor_y - line_height_mm font_size, s1.pages⟩,
              acc.2 ++ [DrawOp.text s1.pages (MARGIN_MM + indent_mm) s1.cursor_y line]))
          (s, acc)).2).map textOf = acc.map textOf ++ lines := by
  induction lines with
  | nil => intro s acc; simp
  | cons line rest ih =>
    intro s acc
    rw [List.foldl_cons]
    rw [ih]
    simp [textOf]

theorem write_lines_texts (lines : List (List Char)) (font_size indent_mm : ℚ) (s : RState) :
    ((write_lines lines font_size indent_mm s).2).map textOf = lines := by
  have := write_lines_fold_texts lines font_size indent_mm s []
  simpa [write_lines] using this

theorem code_max_chars_eval : code_max_chars = 87 := by
  rw [code_max_chars, ratToUsize, mm_to_pt, max_text_width_mm, PAGE_WIDTH_MM, MARGIN_MM]
  norm_num
  rfl

/-- C9: `code_block` draws exactly the chunk sequence obtained by hard-splitting
each source line (as split by Rust `str::lines`) at the fixed character count
`code_max_chars` (= 87): the drawn strings are the concatenation, line by line,
of each line's chunks; per line the chunks concatenate back to exactly the
line's characters in order, every chunk has at most `code_max_chars`
characters, and every chunk but the last has exactly `code_max_chars`.  No
word-wrapping is involved: `wrap_text` is never consulted. -/
theorem code_block_chunks (text : List Char) (s : RState) :
    ((code_block text s).2).map textOf =
        (rustLines text).flatMap (chunksOf code_max_chars) ∧
      ∀ l ∈ rustLines text,
        (chunksOf code_max_chars l).flatten = l ∧
          (∀ ch ∈ chunksOf code_max_chars l, ch.length ≤ code_max_chars) ∧
          ∀ ch ∈ (chunksOf code_max_chars l).dropLast, ch.length = code_max_chars := by
  have hk : max code_max_chars 1 = code_max_chars := by
    rw [code_max_chars_eval]
    omega
  constructor
  · show ((write_lines ((rustLines text).flatMap (chunksOf code_max_chars))
        (19 / 2) 4 s).2).map textOf = _
    exact write_lines_texts _ _ _ _
  · intro l _
    refine ⟨chunksOf_flatten _ _, fun ch hch => ?_, fun ch hch => ?_⟩
    · exact hk ▸ chunksOf_length_le _ _ ch hch
    · exact hk ▸ chunksOf_dropLast_length _ _ ch hch

theorem code_block_chunks_witness :
    ((code_block ("ab\ncd").toList initState).2).map textOf =
      (rustLines ("ab\ncd").toList).flatMap (chunksOf code_max_chars) :=
  (code_block_chunks ("ab\ncd").toList initState).1

theorem matchLen_le_right (a b : List Comp) : matchLen a b ≤ b.length := by
  induction a generalizing b with
  | nil => rw [matchLen]; exact Nat.zero_le _
  | cons x xs ih =>
    rcases b with _ | ⟨y, ys⟩
    · rw [matchLen]
      exact Nat.zero_le _
    · rw [matchLen]
      split_ifs
      · simpa using ih ys
      · simp

theorem matchLen_take (f p : List Comp) (cl : ℕ) (hcl : cl ≤ f.length) :
    matchLen (f.take cl) p = min cl (matchLen f p) := by
  induction f generalizing p cl with
  | nil =>
    have : cl = 0 := by simpa using hcl
    subst this
    simp [matchLen]
  | cons a as ih =>
    rcases cl with _ | cl'
    · simp [matchLen]
    · rcases p with _ | ⟨b, bs⟩
      · rw [List.take_succ_cons, matchLen, matchLen]
        simp
      · rw [List.take_succ_cons, matchLen, matchLen]
        split_ifs
        · rw [ih bs cl' (by simpa using hcl)]
          omega
        · simp

theorem lcpPair_take (f p : List Comp) (cl : ℕ) (hcl : cl ≤ f.length) :
    lcpPair (f.take cl) p = f.take (min (min cl p.length) (matchLen f p)) := by
  rw [lcpPair, matchLen_take f p cl hcl, List.take_take]
  have h1 : min (min cl (matchLen f p)) cl = min cl (matchLen f p) := by omega
  have h2 : min (min cl p.length) (matchLen f p) = min cl (matchLen f p) := by
    have hr := matchLen_le_right f p
    omega
  rw [h1, h2]

theorem common_root_fold (first : List Comp) (rest : List (List Comp)) :
    ∀ cl, cl ≤ first.length →
      rest.foldl lcpPair (first.take cl) =
          first.take (rest.foldl
            (fun cl p => min (min cl p.length) (matchLen first p)) cl) ∧
        rest.foldl (fun cl p => min (min cl p.length) (matchLen first p)) cl ≤
          first.length := by
  induction rest with
  | nil => intro cl hcl; exact ⟨rfl, hcl⟩
  | cons p rest' ih =>
    intro cl hcl
    rw [List.foldl_cons, List.foldl_cons]
    rw [lcpPair_take first p cl hcl]
    exact ih (min (min cl p.length) (matchLen first p)) (by omega)

theorem common_root_eq_lcp (paths : List (List Comp)) :
    common_root paths = (if lcpAll paths = [] then none else some (lcpAll paths)) := by
  rcases paths with _ | ⟨first, rest⟩
  · rfl
  · rw [common_root, lcpAll]
    have hfold := common_root_fold first rest first.length le_rfl
    have hfirst : first.take first.length = first := List.take_length first
    rw [hfirst] at hfold
    rw [hfold.1]
    by_cases h0 : rest.foldl (fun cl p => min (min cl p.length) (matchLen first p))
        first.length = 0
    · rw [if_pos h0, h0]
      simp
    · rw [if_neg h0]
      rw [if_neg (by
        intro hc
        have h2 := hfold.2
        rcases List.take_eq_nil_iff.mp hc with h | h
        · exact h0 h
        · have hlen0 : first.length = 0 := by rw [h]; rfl
          exact h0 (by omega))]

/-- C8 amended: the output root of `process_input` is the longest common
component prefix of the input locations (the parent directory of a file or
archive input, a directory input itself) whenever that prefix is non-empty and
has a parent itself — true of every non-empty prefix except the bare
filesystem root, since even a single relative component has the empty path as
its parent; otherwise — when there is no common prefix, or the common prefix
is the bare filesystem root — it falls back to the FIRST input's location,
regardless of how many inputs there are. -/
theorem process_input_root_spec (inputs : List InputLoc) :
    process_input_root inputs =
      (if lcpAll (output_roots inputs) ≠ [] ∧
          (parentOpt (lcpAll (output_roots inputs))).isSome then
        lcpAll (output_roots inputs)
      else (output_roots inputs).headD []) := by
  rw [process_input_root, common_root_eq_lcp]
  by_cases h1 : lcpAll (output_roots inputs) = []
  · rw [if_pos h1, if_neg (by simp [h1])]
  · rw [if_neg h1]
    by_cases h2 : (parentOpt (lcpAll (output_roots inputs))).isSome
    · rw [if_pos ⟨h1, h2⟩]
      show (if (parentOpt (lcpAll (output_roots inputs))).isSome then
        lcpAll (output_roots inputs) else (output_roots inputs).headD []) = _
      rw [if_pos h2]
    · rw [if_neg (fun hc => h2 hc.2)]
      show (if (parentOpt (lcpAll (output_roots inputs))).isSome then
        lcpAll (output_roots inputs) else (output_roots inputs).headD []) = _
      rw [if_neg h2]

/-- C8 counterexample: for the two directory inputs `/a` and `/b`, the deepest
common ancestor of the input locations exists — it is the root `/`, the
longest common component prefix — but `process_input` filters out a parentless
common root and returns the first input's own location `/a` instead; the claim
also speaks of a "sole input" fallback while the code falls back to the first
of several inputs. -/
theorem process_input_root_cex :
    process_input_root
        [InputLoc.mk [Comp.root, Comp.name "a"] false,
         InputLoc.mk [Comp.root, Comp.name "b"] false] =
      [Comp.root, Comp.name "a"] ∧
    lcpAll (output_roots
        [InputLoc.mk [Comp.root, Comp.name "a"] false,
         InputLoc.mk [Comp.root, Comp.name "b"] false]) = [Comp.root] ∧
    process_input_root
        [InputLoc.mk [Comp.root, Comp.name "a"] false,
         InputLoc.mk [Comp.root, Comp.name "b"] false] ≠ [Comp.root] := by
  refine ⟨?_, ?_, ?_⟩ <;> decide

theorem pt_to_mm_nonneg (x : ℚ) (hx : 0 ≤ x) : 0 ≤ pt_to_mm x := by
  rw [pt_to_mm]
  positivity

theorem line_height_bounds (fs : ℚ) (h1 : 0 < fs) (h2 : fs ≤ 30) :
    0 < line_height_mm fs ∧ line_height_mm fs ≤ PAGE_HEIGHT_MM - 2 * MARGIN_MM := by
  rw [line_height_mm, pt_to_mm, PAGE_HEIGHT_MM, MARGIN_MM]
  constructor
  · positivity
  · nlinarith

theorem headingSize_bounds (level : ℕ) : 0 < headingSize level ∧ headingSize level ≤ 30 := by
  rw [headingSize]
  split_ifs <;> norm_num

theorem ensure_space_le_top (h : ℚ) (s : RState)
    (hs : s.cursor_y ≤ PAGE_HEIGHT_MM - MARGIN_MM) :
    (ensure_space h s).cursor_y ≤ PAGE_HEIGHT_MM - MARGIN_MM := by
  rw [ensure_space]
  split_ifs
  · exact le_of_eq rfl
  · exact hs

theorem ensure_space_ge (h : ℚ) (s : RState)
    (hh : h ≤ PAGE_HEIGHT_MM - 2 * MARGIN_MM) :
    MARGIN_MM ≤ (ensure_space h s).cursor_y - h := by
  rw [ensure_space]
  split_ifs with hc
  · show MARGIN_MM ≤ PAGE_HEIGHT_MM - MARGIN_MM - h
    rw [PAGE_HEIGHT_MM, MARGIN_MM] at hh ⊢
    linarith
  · push_neg at hc
    linarith

theorem write_lines_fold_inv (lines : List (List Char)) (font_size indent_mm : ℚ)
    (hpos : 0 < line_height_mm font_size)
    (hle : line_height_mm font_size ≤ PAGE_HEIGHT_MM - 2 * MARGIN_MM) :
    ∀ (s : RState) (acc : List DrawOp),
      s.cursor_y ≤ PAGE_HEIGHT_MM - MARGIN_MM →
      (∀ op ∈ acc, MARGIN_MM ≤ opY op ∧ opY op ≤ PAGE_HEIGHT_MM - MARGIN_MM) →
      (lines.foldl
          (fun acc line =>
            let s1 := ensure_space (line_height_mm font_size) acc.1
            (⟨s1.cursor_y - line_height_mm font_size, s1.pages⟩,
              acc.2 ++ [DrawOp.text s1.pages (MARGIN_MM + indent_mm) s1.cursor_y line]))
          (s, acc)).1.cursor_y ≤ PAGE_HEIGHT_MM - MARGIN_MM ∧
        ∀ op ∈ (lines.foldl
            (fun acc line =>
              let s1 := ensure_space (line_height_mm font_size) acc.1
              (⟨s1.cursor_y - line_height_mm font_size, s1.pages⟩,
                acc.2 ++ [DrawOp.text s1.pages (MARGIN_MM + indent_mm) s1.cursor_y line]))
            (s, acc)).2,
          MARGIN_MM ≤ opY op ∧ opY op ≤ PAGE_HEIGHT_MM - MARGIN_MM := by
  induction lines with
  | nil => intro s acc hs hacc; exact ⟨hs, hacc⟩
  | cons line rest ih =>
    intro s acc hs hacc
    rw [List.foldl_cons]
    have h1 := ensure_space_le_top (line_height_mm font_size) s hs
    have h2 := ensure_space_ge (line_height_mm font_size) s hle
    refine ih _ _ (by simp only []; linarith) ?_
    intro op hop
    rcases List.mem_append.mp hop with hmem | hmem
    · exact hacc op hmem
    · rcases List.mem_singleton.mp hmem with rfl
      simp only [opY]
      constructor
      · linarith
      · exact h1

theorem write_lines_inv (lines : List (List Char)) (font_size indent_mm : ℚ) (s : RState)
    (hpos : 0 < line_height_mm font_size)
    (hle : line_height_mm font_size ≤ PAGE_HEIGHT_MM - 2 * MARGIN_MM)
    (hs : s.cursor_y ≤ PAGE_HEIGHT_MM - MARGIN_MM) :
    (write_lines lines font_size indent_mm s).1.cursor_y ≤ PAGE_HEIGHT_MM - MARGIN_MM ∧
      ∀ op ∈ (write_lines lines font_size indent_mm s).2,
        MARGIN_MM ≤ opY op ∧ opY op ≤ PAGE_HEIGHT_MM - MARGIN_MM := by
  exact write_lines_fold_inv lines font_size indent_mm hpos hle s [] hs (by simp)

theorem paragraph_inv (text : List Char) (s : RState)
    (hs : s.cursor_y ≤ PAGE_HEIGHT_MM - MARGIN_MM) :
    (paragraph text s).1.cursor_y ≤ PAGE_HEIGHT_MM - MARGIN_MM ∧
      ∀ op ∈ (paragraph text s).2,
        MARGIN_MM ≤ opY op ∧ opY op ≤ PAGE_HEIGHT_MM - MARGIN_MM := by
  have hb := line_height_bounds 11 (by norm_num) (by norm_num)
  have hw := write_lines_inv (wrap_text text 11 (max_text_width_mm 0)) 11 0 s hb.1 hb.2 hs
  have hp : (0 : ℚ) ≤ pt_to_mm 6 := pt_to_mm_nonneg 6 (by norm_num)
  refine ⟨?_, hw.2⟩
  show (write_lines (wrap_text text 11 (max_text_width_mm 0)) 11 0 s).1.cursor_y - pt_to_mm 6 ≤
    PAGE_HEIGHT_MM - MARGIN_MM
  linarith [hw.1]

theorem heading_inv (level : ℕ) (text : List Char) (s : RState)
    (hs : s.cursor_y ≤ PAGE_HEIGHT_MM - MARGIN_MM) :
    (heading level text s).1.cursor_y ≤ PAGE_HEIGHT_MM - MARGIN_MM ∧
      ∀ op ∈ (heading level text s).2,
        MARGIN_MM ≤ opY op ∧ opY op ≤ PAGE_HEIGHT_MM - MARGIN_MM := by
  have hsz := headingSize_bounds level
  have hb := line_height_bounds (headingSize level) hsz.1 hsz.2
  have hw := write_lines_inv (wrap_text text (headingSize level) (max_text_width_mm 0))
    (headingSize level) 0 s hb.1 hb.2 hs
  have hp : (0 : ℚ) ≤ pt_to_mm 8 := pt_to_mm_nonneg 8 (by norm_num)
  refine ⟨?_, hw.2⟩
  show (write_lines (wrap_text text (headingSize level) (max_text_width_mm 0))
      (headingSize level) 0 s).1.cursor_y - pt_to_mm 8 ≤ PAGE_HEIGHT_MM - MARGIN_MM
  linarith [hw.1]

theorem code_block_inv (text : List Char) (s : RState)
    (hs : s.cursor_y ≤ PAGE_HEIGHT_MM - MARGIN_MM) :
    (code_block text s).1.cursor_y ≤ PAGE_HEIGHT_MM - MARGIN_MM ∧
      ∀ op ∈ (code_block text s).2,
        MARGIN_MM ≤ opY op ∧ opY op ≤ PAGE_HEIGHT_MM - MARGIN_MM := by
  have hb := line_height_bounds (19 / 2) (by norm_num) (by norm_num)
  have hw := write_lines_inv ((rustLines text).flatMap (chunksOf code_max_chars))
    (19 / 2) 4 s hb.1 hb.2 hs
  have hp : (0 : ℚ) ≤ pt_to_mm 6 := pt_to_mm_nonneg 6 (by norm_num)
  refine ⟨?_, hw.2⟩
  show (write_lines ((rustLines text).flatMap (chunksOf code_max_chars))
      (19 / 2) 4 s).1.cursor_y - pt_to_mm 6 ≤ PAGE_HEIGHT_MM - MARGIN_MM
  linarith [hw.1]

theorem rule_le_top (s : RState) (hs : s.cursor_y ≤ PAGE_HEIGHT_MM - MARGIN_MM) :
    (rule s).cursor_y ≤ PAGE_HEIGHT_MM - MARGIN_MM := by
  have hp : (0 : ℚ) ≤ pt_to_mm 8 := pt_to_mm_nonneg 8 (by norm_num)
  show s.cursor_y - pt_to_mm 8 ≤ PAGE_HEIGHT_MM - MARGIN_MM
  linarith

theorem list_item_step_eq_nil (s : RState) (ops : List DrawOp) (item : List Char)
    (hlines : wrap_text item 11 (max_text_width_mm 6) = []) :
    list_item_step (s, ops) item = (⟨s.cursor_y - pt_to_mm 2, s.pages⟩, ops) := by
  simp only [list_item_step, hlines]
  simp

theorem list_item_step_eq_single (s : RState) (ops : List DrawOp) (item first : List Char)
    (hlines : wrap_text item 11 (max_text_width_mm 6) = [first]) :
    list_item_step (s, ops) item =
      (⟨(ensure_space (line_height_mm 11) s).cursor_y - line_height_mm 11 - pt_to_mm 2,
          (ensure_space (line_height_mm 11) s).pages⟩,
        ops ++
          [DrawOp.text (ensure_space (line_height_mm 11) s).pages MARGIN_MM
              (ensure_space (line_height_mm 11) s).cursor_y ['•'],
           DrawOp.text (ensure_space (line_height_mm 11) s).pages (MARGIN_MM + 6)
              (ensure_space (line_height_mm 11) s).cursor_y first]) := by
  simp only [list_item_step, hlines]
  simp

theorem list_item_step_eq_multi (s : RState) (ops : List DrawOp) (item first d : List Char)
    (ds : List (List Char))
    (hlines : wrap_text item 11 (max_text_width_mm 6) = first :: d :: ds) :
    list_item_step (s, ops) item =
      (⟨(write_lines (d :: ds) 11 6
            ⟨(ensure_space (line_height_mm 11) s).cursor_y - line_height_mm 11,
              (ensure_space (line_height_mm 11) s).pages⟩).1.cursor_y - pt_to_mm 2,
          (write_lines (d :: ds) 11 6
            ⟨(ensure_space (line_height_mm 11) s).cursor_y - line_height_mm 11,
              (ensure_space (line_height_mm 11) s).pages⟩).1.pages⟩,
        ops ++
          [DrawOp.text (ensure_space (line_height_mm 11) s).pages MARGIN_MM
              (ensure_space (line_height_mm 11) s).cursor_y ['•'],
           DrawOp.text (ensure_space (line_height_mm 11) s).pages (MARGIN_MM + 6)
              (ensure_space (line_height_mm 11) s).cursor_y first] ++
          (write_lines (d :: ds) 11 6
            ⟨(ensure_space (line_height_mm 11) s).cursor_y - line_height_mm 11,
              (ensure_space (line_height_mm 11) s).pages⟩).2) := by
  simp only [list_item_step, hlines]
  rw [if_pos (by simp)]
  simp

theorem list_item_step_inv (acc : RState × List DrawOp) (item : List Char)
    (hs : acc.1.cursor_y ≤ PAGE_HEIGHT_MM - MARGIN_MM)
    (hacc : ∀ op ∈ acc.2, MARGIN_MM ≤ opY op ∧ opY op ≤ PAGE_HEIGHT_MM - MARGIN_MM) :
    (list_item_step acc item).1.cursor_y ≤ PAGE_HEIGHT_MM - MARGIN_MM ∧
      ∀ op ∈ (list_item_step acc item).2,
        MARGIN_MM ≤ opY op ∧ opY op ≤ PAGE_HEIGHT_MM - MARGIN_MM := by
  rcases acc with ⟨s, ops⟩
  have hb := line_height_bounds 11 (by norm_num) (by norm_num)
  have hpt2 : (0 : ℚ) ≤ pt_to_mm 2 := pt_to_mm_nonneg 2 (by norm_num)
  have h1 := ensure_space_le_top (line_height_mm 11) s hs
  have h2 := ensure_space_ge (line_height_mm 11) s hb.2
  have hops1 : ∀ (first : List Char), ∀ op ∈
      [DrawOp.text (ensure_space (line_height_mm 11) s).pages MARGIN_MM
          (ensure_space (line_height_mm 11) s).cursor_y ['•'],
       DrawOp.text (ensure_space (line_height_mm 11) s).pages (MARGIN_MM + 6)
          (ensure_space (line_height_mm 11) s).cursor_y first],
      MARGIN_MM ≤ opY op ∧ opY op ≤ PAGE_HEIGHT_MM - MARGIN_MM := by
    intro first op hop
    rcases List.mem_cons.mp hop with rfl | hop2
    · exact ⟨by simp only [opY]; linarith, h1⟩
    · rcases List.mem_singleton.mp hop2 with rfl
      exact ⟨by simp only [opY]; linarith, h1⟩
  rcases hlines : wrap_text item 11 (max_text_width_mm 6) with _ | ⟨first, _ | ⟨d, ds⟩⟩
  · rw [list_item_step_eq_nil s ops item hlines]
    exact ⟨by simp only []; linarith, hacc⟩
  · rw [list_item_step_eq_single s ops item first hlines]
    refine ⟨by simp only []; linarith, ?_⟩
    intro op hop
    rcases List.mem_append.mp hop with hmem | hmem
    · exact hacc op hmem
    · exact hops1 first op hmem
  · have hmid : (⟨(ensure_space (line_height_mm 11) s).cursor_y - line_height_mm 11,
        (ensure_space (line_height_mm 11) s).pages⟩ : RState).cursor_y ≤
        PAGE_HEIGHT_MM - MARGIN_MM := by
      simp only []
      linarith
    have hw := write_lines_inv (d :: ds) 11 6
      ⟨(ensure_space (line_height_mm 11) s).cursor_y - line_height_mm 11,
        (ensure_space (line_height_mm 11) s).pages⟩ hb.1 hb.2 hmid
    rw [list_item_step_eq_multi s ops item first d ds hlines]
    refine ⟨by simp only []; linarith [hw.1], ?_⟩
    intro op hop
    rcases List.mem_append.mp hop with hmem | hmem
    · rcases List.mem_append.mp hmem with hmem2 | hmem2
      · exact hacc op hmem2
      · exact hops1 first op hmem2
    · exact hw.2 op hmem

theorem list_fold_inv (items : List (List Char)) :
    ∀ (s : RState) (acc : List DrawOp),
      s.cursor_y ≤ PAGE_HEIGHT_MM - MARGIN_MM →
      (∀ op ∈ acc, MARGIN_MM ≤ opY op ∧ opY op ≤ PAGE_HEIGHT_MM - MARGIN_MM) →
      (items.foldl list_item_step (s, acc)).1.cursor_y ≤ PAGE_HEIGHT_MM - MARGIN_MM ∧
        ∀ op ∈ (items.foldl list_item_step (s, acc)).2,
          MARGIN_MM ≤ opY op ∧ opY op ≤ PAGE_HEIGHT_MM - MARGIN_MM := by
  induction items with
  | nil => intro s acc hs hacc; exact ⟨hs, hacc⟩
  | cons item rest ih =>
    intro s acc hs hacc
    rw [List.foldl_cons]
    have hstep := list_item_step_inv (s, acc) item hs hacc
    have := ih (list_item_step (s, acc) item).1 (list_item_step (s, acc) item).2
      hstep.1 hstep.2
    simpa using this

theorem list_inv (items : List (List Char)) (s : RState)
    (hs : s.cursor_y ≤ PAGE_HEIGHT_MM - MARGIN_MM) :
    (list items s).1.cursor_y ≤ PAGE_HEIGHT_MM - MARGIN_MM ∧
      ∀ op ∈ (list items s).2,
        MARGIN_MM ≤ opY op ∧ opY op ≤ PAGE_HEIGHT_MM - MARGIN_MM := by
  have hf := list_fold_inv items s [] hs (by simp)
  have hpt4 : (0 : ℚ) ≤ pt_to_mm 4 := pt_to_mm_nonneg 4 (by norm_num)
  refine ⟨?_, hf.2⟩
  show (items.foldl list_item_step (s, [])).1.cursor_y - pt_to_mm 4 ≤
    PAGE_HEIGHT_MM - MARGIN_MM
  linarith [hf.1]

theorem imageGeometry_height_bounds (wpx hpx : ℕ) :
    0 ≤ (imageGeometry wpx hpx).2.1 ∧
      (imageGeometry wpx hpx).2.1 ≤ MAX_IMAGE_HEIGHT_MM := by
  have hM : (0 : ℚ) < MAX_IMAGE_HEIGHT_MM := by rw [MAX_IMAGE_HEIGHT_MM]; norm_num
  have hmaxw : (0 : ℚ) < max_text_width_mm 0 := by
    rw [max_text_width_mm, PAGE_WIDTH_MM, MARGIN_MM]
    norm_num
  have hh0 : (0 : ℚ) ≤ (hpx : ℚ) * (254 / 10) / 96 := by positivity
  simp only [imageGeometry]
  by_cases hw : (wpx : ℚ) * (254 / 10) / 96 > max_text_width_mm 0
  · rw [if_pos hw]
    have hw0 : (0 : ℚ) < (wpx : ℚ) * (254 / 10) / 96 := lt_trans hmaxw hw
    have hs1 : (0 : ℚ) ≤ max_text_width_mm 0 / ((wpx : ℚ) * (254 / 10) / 96) := by positivity
    by_cases hh : (hpx : ℚ) * (254 / 10) / 96 *
        (max_text_width_mm 0 / ((wpx : ℚ) * (254 / 10) / 96)) > MAX_IMAGE_HEIGHT_MM
    · rw [if_pos hh]
      exact ⟨le_of_lt hM, le_rfl⟩
    · rw [if_neg hh]
      exact ⟨mul_nonneg hh0 hs1, not_lt.mp hh⟩
  · rw [if_neg hw]
    by_cases hh : (hpx : ℚ) * (254 / 10) / 96 > MAX_IMAGE_HEIGHT_MM
    · rw [if_pos hh]
      exact ⟨le_of_lt hM, le_rfl⟩
    · rw [if_neg hh]
      exact ⟨hh0, not_lt.mp hh⟩

theorem pt_to_mm6_bounds : (0 : ℚ) ≤ pt_to_mm 6 ∧ pt_to_mm 6 ≤ 3 := by
  rw [pt_to_mm]
  constructor <;> norm_num

theorem image_inv (env : Env) (path dest : List Char) (s : RState)
    (hs : s.cursor_y ≤ PAGE_HEIGHT_MM - MARGIN_MM) :
    (match image env path dest s with
     | .ok (s', ops) => s'.cursor_y ≤ PAGE_HEIGHT_MM - MARGIN_MM ∧
         ∀ op ∈ ops, MARGIN_MM ≤ opY op ∧ opY op ≤ PAGE_HEIGHT_MM - MARGIN_MM
     | .error _ => True) := by
  simp only [image]
  split_ifs with h1 h2
  · exact ⟨hs, by simp⟩
  · trivial
  · cases hdims : env.imageDims (resolveImagePath path dest) with
    | none => trivial
    | some wh =>
      rcases wh with ⟨wpx, hpx⟩
      have hg := imageGeometry_height_bounds wpx hpx
      have hpt6 := pt_to_mm6_bounds
      have harg : (imageGeometry wpx hpx).2.1 + pt_to_mm 6 ≤
          PAGE_HEIGHT_MM - 2 * MARGIN_MM := by
        rw [PAGE_HEIGHT_MM, MARGIN_MM]
        rw [MAX_IMAGE_HEIGHT_MM] at hg
        linarith [hg.2, hpt6.2]
      have hle := ensure_space_le_top ((imageGeometry wpx hpx).2.1 + pt_to_mm 6) s hs
      have hge := ensure_space_ge ((imageGeometry wpx hpx).2.1 + pt_to_mm 6) s harg
      refine ⟨?_, ?_⟩
      · simp only []
        linarith [hg.1, hpt6.1]
      · intro op hop
        rcases List.mem_singleton.mp hop with rfl
        simp only [opY]
        constructor
        · linarith [hpt6.1]
        · linarith [hg.1]

theorem mapOps_inv (ops : List DrawOp) (r : Except String (RState × List DrawOp))
    (hops : ∀ op ∈ ops, MARGIN_MM ≤ opY op ∧ opY op ≤ PAGE_HEIGHT_MM - MARGIN_MM)
    (hr : match r with
      | .ok (s', ops') => s'.cursor_y ≤ PAGE_HEIGHT_MM - MARGIN_MM ∧
          ∀ op ∈ ops', MARGIN_MM ≤ opY op ∧ opY op ≤ PAGE_HEIGHT_MM - MARGIN_MM
      | .error _ => True) :
    (match mapOps ops r with
     | .ok (s', ops') => s'.cursor_y ≤ PAGE_HEIGHT_MM - MARGIN_MM ∧
         ∀ op ∈ ops', MARGIN_MM ≤ opY op ∧ opY op ≤ PAGE_HEIGHT_MM - MARGIN_MM
     | .error _ => True) := by
  rcases r with e | ⟨s', ops'⟩
  · trivial
  · refine ⟨hr.1, ?_⟩
    intro op hop
    rcases List.mem_append.mp hop with hmem | hmem
    · exact hops op hmem
    · exact hr.2 op hmem

theorem renderEvents_inv (env : Env) (path : List Char) (events : List MdEvent) :
    ∀ (ctx : Ctx) (s : RState), s.cursor_y ≤ PAGE_HEIGHT_MM - MARGIN_MM →
      (match renderEvents env path events ctx s with
       | .ok (s', ops) => s'.cursor_y ≤ PAGE_HEIGHT_MM - MARGIN_MM ∧
           ∀ op ∈ ops, MARGIN_MM ≤ opY op ∧ opY op ≤ PAGE_HEIGHT_MM - MARGIN_MM
       | .error _ => True) := by
  induction events with
  | nil =>
    intro ctx s hs
    exact ⟨hs, by simp⟩
  | cons e rest ih =>
    intro ctx s hs
    cases e with
    | startParagraph => exact ih _ s hs
    | startHeading level => exact ih _ s hs
    | startList => exact ih _ s hs
    | startItem => exact ih _ s hs
    | startCodeBlock => exact ih _ s hs
    | startImage dest => exact ih _ s hs
    | endParagraph =>
      simp only [renderEvents]
      by_cases hp : ctx.in_paragraph = true
      · rw [if_pos hp]
        have hpg := paragraph_inv (trim ctx.current_text) s hs
        exact mapOps_inv _ _ hpg.2 (ih _ _ hpg.1)
      · rw [if_neg hp]
        exact mapOps_inv _ _ (by simp) (ih _ _ hs)
    | endHeading =>
      simp only [renderEvents]
      cases hch : ctx.current_heading with
      | some level =>
        have hh := heading_inv level (trim ctx.current_text) s hs
        exact mapOps_inv _ _ hh.2 (ih _ _ hh.1)
      | none => exact ih _ _ hs
    | endList =>
      simp only [renderEvents]
      by_cases hl : ctx.list_items = []
      · rw [if_pos hl]
        exact mapOps_inv _ _ (by simp) (ih _ _ hs)
      · rw [if_neg hl]
        have hli := list_inv ctx.list_items s hs
        exact mapOps_inv _ _ hli.2 (ih _ _ hli.1)
    | endItem =>
      simp only [renderEvents]
      cases hci : ctx.current_list_item with
      | some item => exact ih _ _ hs
      | none => exact ih _ _ hs
    | endCodeBlock =>
      simp only [renderEvents]
      by_cases hc : ctx.in_code_block = true
      · rw [if_pos hc]
        have hcb := code_block_inv ctx.code_text s hs
        exact mapOps_inv _ _ hcb.2 (ih _ _ hcb.1)
      · rw [if_neg hc]
        exact mapOps_inv _ _ (by simp) (ih _ _ hs)
    | endImage =>
      cases hci : ctx.current_image with
      | none =>
        simp only [renderEvents, hci]
        exact ih _ _ hs
      | some dest =>
        simp only [renderEvents, hci]
        cases himage : image env path dest s with
        | error e => trivial
        | ok pr =>
          rcases pr with ⟨s1, ops1⟩
          have himg := image_inv env path dest s hs
          rw [himage] at himg
          have himg' : s1.cursor_y ≤ PAGE_HEIGHT_MM - MARGIN_MM ∧
              ∀ op ∈ ops1, MARGIN_MM ≤ opY op ∧ opY op ≤ PAGE_HEIGHT_MM - MARGIN_MM := himg
          exact mapOps_inv _ _ himg'.2 (ih _ _ himg'.1)
    | text t =>
      simp only [renderEvents]
      by_cases hc : ctx.in_code_block = true
      · rw [if_pos hc]
        exact ih _ _ hs
      · rw [if_neg hc]
        cases ctx.current_list_item with
        | some item => exact ih _ _ hs
        | none => exact ih _ _ hs
    | code t =>
      simp only [renderEvents]
      cases ctx.current_list_item with
      | some item => exact ih _ _ hs
      | none => exact ih _ _ hs
    | softBreak =>
      simp only [renderEvents]
      by_cases hc : ctx.in_code_block = true
      · rw [if_pos hc]
        exact ih _ _ hs
      · rw [if_neg hc]
        exact ih _ _ hs
    | hardBreak =>
      simp only [renderEvents]
      by_cases hc : ctx.in_code_block = true
      · rw [if_pos hc]
        exact ih _ _ hs
      · rw [if_neg hc]
        exact ih _ _ hs
    | rule => exact ih _ _ (rule_le_top s hs)
    | other => exact ih _ _ hs

/-- C1 amended: starting from the initial renderer state, every recorded
drawing call lands between the margins — each line or image placement is
guarded by `ensure_space`, which breaks the page first whenever the placement
would fall below the bottom margin — and the cursor never exceeds the top
margin.  The lower bound `MARGIN_MM ≤ cursor_y` at the START of an operation,
as originally claimed, does NOT hold: trailing spacing and `Event::Rule`
decrement the cursor without any check (see the counterexample), and the next
operation then starts below the margin and immediately page-breaks before its
first placement. -/
theorem rendering_cursor_bounds (env : Env) (path : List Char) (events : List MdEvent) :
    match renderEvents env path events ctx0 initState with
    | .ok (s', ops) => s'.cursor_y ≤ PAGE_HEIGHT_MM - MARGIN_MM ∧
        ∀ op ∈ ops, MARGIN_MM ≤ opY op ∧ opY op ≤ PAGE_HEIGHT_MM - MARGIN_MM
    | .error _ => True :=
  renderEvents_inv env path events ctx0 initState (le_of_eq rfl)

theorem renderEvents_rules (env : Env) (path : List Char) (n : ℕ) :
    ∀ (ctx : Ctx) (s : RState),
      renderEvents env path (List.replicate n MdEvent.rule) ctx s =
        .ok (⟨s.cursor_y - (n : ℚ) * pt_to_mm 8, s.pages⟩, []) := by
  induction n with
  | zero =>
    intro ctx s
    rw [List.replicate_zero]
    have h0 : s.cursor_y - ((0 : ℕ) : ℚ) * pt_to_mm 8 = s.cursor_y := by
      push_cast
      ring
    rw [show renderEvents env path [] ctx s = Except.ok (s, []) from rfl, h0]
  | succ n ihn =>
    intro ctx s
    rw [List.replicate_succ]
    rw [show renderEvents env path (MdEvent.rule :: List.replicate n MdEvent.rule) ctx s =
        renderEvents env path (List.replicate n MdEvent.rule) ctx (rule s) from rfl]
    rw [ihn ctx (rule s)]
    have harith : (rule s).cursor_y - (n : ℚ) * pt_to_mm 8 =
        s.cursor_y - ((n + 1 : ℕ) : ℚ) * pt_to_mm 8 := by
      show s.cursor_y - pt_to_mm 8 - (n : ℚ) * pt_to_mm 8 = _
      push_cast
      ring
    rw [harith]
    rfl

/-- C1 counterexample: ninety-five `Event::Rule` events from the initial state
leave the cursor at 282 − 95·(8pt) ≈ 13.89 mm, strictly below the 15 mm bottom
margin; the 96th rule — a drawing operation of the claim's list — therefore
STARTS with the cursor below the margin, and even after it runs no page has
been created.  This refutes the claimed invariant `MARGIN_MM ≤ cursor_y` at
the start of every drawing operation. -/
theorem rule_cursor_below_margin :
    cursorOf (renderEvents env0 [] (List.replicate 95 MdEvent.rule) ctx0 initState) <
        MARGIN_MM ∧
      pagesOf (renderEvents env0 [] (List.replicate 96 MdEvent.rule) ctx0 initState) = 0 := by
  rw [renderEvents_rules env0 [] 95 ctx0 initState,
      renderEvents_rules env0 [] 96 ctx0 initState]
  constructor
  · show initState.cursor_y - (95 : ℚ) * pt_to_mm 8 < MARGIN_MM
    show PAGE_HEIGHT_MM - MARGIN_MM - (95 : ℚ) * pt_to_mm 8 < MARGIN_MM
    rw [PAGE_HEIGHT_MM, MARGIN_MM, pt_to_mm]
    norm_num
  · rfl

theorem image_not_found (env : Env) (path dest : List Char) (s : RState)
    (hweb : startsWithHttp dest = false)
    (hex : env.fileExists (resolveImagePath path dest) = false) :
    image env path dest s =
      Except.error ("Image not found: " ++ String.mk (resolveImagePath path dest)) := by
  simp only [image]
  rw [if_neg (by rw [hweb]; simp), if_pos hex]

theorem exceptIsOk_mapOps (ops : List DrawOp) (r : Except String (RState × List DrawOp)) :
    exceptIsOk (mapOps ops r) = exceptIsOk r := by
  rcases r with e | ⟨s', ops'⟩
  · rfl
  · rfl

theorem renderEvents_badImage_error (env : Env) (path dest : List Char)
    (post : List MdEvent) (hweb : startsWithHttp dest = false)
    (hex : env.fileExists (resolveImagePath path dest) = false) :
    ∀ (pre : List MdEvent) (ctx : Ctx) (s : RState),
      exceptIsOk (renderEvents env path
        (pre ++ MdEvent.startImage dest :: MdEvent.endImage :: post) ctx s) = false := by
  intro pre
  induction pre with
  | nil =>
    intro ctx s
    simp only [List.nil_append, renderEvents]
    rw [image_not_found env path dest s hweb hex]
    rfl
  | cons e pre' ihp =>
    intro ctx s
    cases e with
    | startParagraph => exact ihp _ s
    | startHeading level => exact ihp _ s
    | startList => exact ihp _ s
    | startItem => exact ihp _ s
    | startCodeBlock => exact ihp _ s
    | startImage d => exact ihp _ s
    | endParagraph =>
      simp only [List.cons_append, renderEvents]
      by_cases hp : ctx.in_paragraph = true
      · rw [if_pos hp, exceptIsOk_mapOps]
        exact ihp _ _
      · rw [if_neg hp, exceptIsOk_mapOps]
        exact ihp _ _
    | endHeading =>
      simp only [List.cons_append, renderEvents]
      cases ctx.current_heading with
      | some level =>
        rw [exceptIsOk_mapOps]
        exact ihp _ _
      | none => exact ihp _ _
    | endList =>
      simp only [List.cons_append, renderEvents]
      by_cases hl : ctx.list_items = []
      · rw [if_pos hl, exceptIsOk_mapOps]
        exact ihp _ _
      · rw [if_neg hl, exceptIsOk_mapOps]
        exact ihp _ _
    | endItem =>
      simp only [List.cons_append, renderEvents]
      cases ctx.current_list_item with
      | some item => exact ihp _ _
      | none => exact ihp _ _
    | endCodeBlock =>
      simp only [List.cons_append, renderEvents]
      by_cases hc : ctx.in_code_block = true
      · rw [if_pos hc, exceptIsOk_mapOps]
        exact ihp _ _
      · rw [if_neg hc, exceptIsOk_mapOps]
        exact ihp _ _
    | endImage =>
      cases hci : ctx.current_image with
      | none =>
        simp only [List.cons_append, renderEvents, hci]
        exact ihp _ _
      | some d =>
        simp only [List.cons_append, renderEvents, hci]
        cases himage : image env path d s with
        | error e2 => rfl
        | ok pr =>
          rcases pr with ⟨s1, ops1⟩
          rw [exceptIsOk_mapOps]
          exact ihp _ _
    | text t =>
      simp only [List.cons_append, renderEvents]
      by_cases hc : ctx.in_code_block = true
      · rw [if_pos hc]
        exact ihp _ _
      · rw [if_neg hc]
        cases ctx.current_list_item with
        | some item => exact ihp _ _
        | none => exact ihp _ _
    | code t =>
      simp only [List.cons_append, renderEvents]
      cases ctx.current_list_item with
      | some item => exact ihp _ _
      | none => exact ihp _ _
    | softBreak =>
      simp only [List.cons_append, renderEvents]
      by_cases hc : ctx.in_code_block = true
      · rw [if_pos hc]
        exact ihp _ _
      · rw [if_neg hc]
        exact ihp _ _
    | hardBreak =>
      simp only [List.cons_append, renderEvents]
      by_cases hc : ctx.in_code_block = true
      · rw [if_pos hc]
        exact ihp _ _
      · rw [if_neg hc]
        exact ihp _ _
    | rule => exact ihp _ _
    | other => exact ihp _ _

theorem renderFiles_cons_ok (env : Env) (fpath : List Char) (fevs : List MdEvent)
    (rest : List (List Char × List MdEvent)) (s s2 : RState) (ops2 : List DrawOp)
    (hre : renderEvents env fpath fevs ctx0
        (heading 2 (("File: ").toList ++ fileName fpath) s).1 = .ok (s2, ops2)) :
    renderFiles env ((fpath, fevs) :: rest) s =
      (match renderFiles env rest s2 with
       | .error e => .error e
       | .ok (s3, ops3) =>
         .ok (s3, (heading 2 (("File: ").toList ++ fileName fpath) s).2 ++ ops2 ++ ops3)) := by
  simp only [renderFiles, hre]

theorem renderFiles_error (env : Env) (path dest : List Char) (pre post : List MdEvent)
    (hweb : startsWithHttp dest = false)
    (hex : env.fileExists (resolveImagePath path dest) = false) :
    ∀ (files : List (List Char × List MdEvent)) (s : RState),
      (path, pre ++ MdEvent.startImage dest :: MdEvent.endImage :: post) ∈ files →
      exceptIsOk (renderFiles env files s) = false := by
  intro files
  induction files with
  | nil => intro s hmem; simp at hmem
  | cons f rest ihf =>
    intro s hmem
    rcases f with ⟨fpath, fevs⟩
    rcases List.mem_cons.mp hmem with heq | hmem'
    · have h1 : path = fpath := congrArg Prod.fst heq
      have h2 : pre ++ MdEvent.startImage dest :: MdEvent.endImage :: post = fevs :=
        congrArg Prod.snd heq
      subst h1
      subst h2
      cases hre : renderEvents env path
          (pre ++ MdEvent.startImage dest :: MdEvent.endImage :: post) ctx0
          (heading 2 (("File: ").toList ++ fileName path) s).1 with
      | error e => simp only [renderFiles, hre]; rfl
      | ok pr =>
        exfalso
        have hbad := renderEvents_badImage_error env path dest post hweb hex pre ctx0
          (heading 2 (("File: ").toList ++ fileName path) s).1
        rw [hre] at hbad
        simp [exceptIsOk] at hbad
    · cases hre : renderEvents env fpath fevs ctx0
          (heading 2 (("File: ").toList ++ fileName fpath) s).1 with
      | error e => simp only [renderFiles, hre]; rfl
      | ok pr =>
        rcases pr with ⟨s2, ops2⟩
        rw [renderFiles_cons_ok env fpath fevs rest s s2 ops2 hre]
        have hrec := ihf s2 hmem'
        cases hrf : renderFiles env rest s2 with
        | error e => rfl
        | ok pr2 =>
          exfalso
          rw [hrf] at hrec
          simp [exceptIsOk] at hrec

/-- C6: if any input file's event stream contains an image whose destination
is not a web URL and resolves (absolutely, or relative to that file's
directory) to a path that does not exist, then the image operation fails with
the `Image not found` error, and the whole conversion fails: the result is an
error, and — since the source creates the output file only after all files
have rendered (main.rs:513) — no output file is produced. -/
theorem image_not_found_aborts (env : Env)
    (files : List (List Char × List MdEvent)) (path dest : List Char)
    (pre post : List MdEvent)
    (hmem : (path, pre ++ MdEvent.startImage dest :: MdEvent.endImage :: post) ∈ files)
    (hweb : startsWithHttp dest = false)
    (hex : env.fileExists (resolveImagePath path dest) = false) :
    (∀ s : RState, image env path dest s =
        Except.error ("Image not found: " ++ String.mk (resolveImagePath path dest))) ∧
      exceptIsOk (render_markdown_pdf env files) = false :=
  ⟨fun s => image_not_found env path dest s hweb hex,
    renderFiles_error env path dest pre post hweb hex files initState hmem⟩

theorem image_not_found_aborts_witness :
    exceptIsOk (render_markdown_pdf env0
      [(("docs/readme.md").toList,
        [MdEvent.startImage (("img/a.png").toList), MdEvent.endImage])]) = false :=
  (image_not_found_aborts env0
    [(("docs/readme.md").toList,
      [MdEvent.startImage (("img/a.png").toList), MdEvent.endImage])]
    (("docs/readme.md").toList) (("img/a.png").toList) [] []
    (by simp) (by decide) rfl).2
